import Mathlib

/-!
Verification of the LDAP delta-sync engine (`scripts/syncFromLdap` module).

This file gives a shallow embedding of the sync module's pure core and its
store-mutating operations, and proves/refutes the frozen claims about it.

Modelling conventions:
* The LMDB collections (`usersByDN`, `usersByGUID`, `indexDB`,
  `userTokensByDN`) are modelled as functions `String → Option V`;
  `put`/`remove` are `Function.update`.  `allDNs`, which the code only uses
  as a key set (values are the constant `1`), is modelled as a `List String`
  of keys in insertion order; LMDB's sorted key iteration order is
  irrelevant to every claim proved here (deletions commute), so list order
  stands in for it.
* JavaScript `Set` objects are modelled as duplicate-free lists in
  insertion order (`setAdd`).
* The SHA-1 digest used by `normalizeGUID` for non-canonical identifiers
  and the ISO-8601 rendering of a millisecond timestamp are taken as
  parameters (`hash : String → String`, `iso : Int → String`): no claim
  depends on their concrete values, only on where they are applied.
* `new Date().toISOString()` at upsert/metadata time is modelled by a
  per-pass parameter `now : String` (the wall clock is external input).
* JS falsiness of a string value (`!v`, `x || null`) is: absent or `""`.
-/

/-- Characters kept by the tokenizer's split regex `[^a-z0-9@.+-]+` with the
`i` flag: ASCII letters (either case), digits, `@`, `.`, `+`, `-`. -/
def keepChar (c : Char) : Bool :=
  ('a' ≤ c && c ≤ 'z') || ('A' ≤ c && c ≤ 'Z') || ('0' ≤ c && c ≤ '9') ||
    c == '@' || c == '.' || c == '+' || c == '-'

/-- Split a character list at every element satisfying `p` (the separator
predicate), keeping the (possibly empty) fragments between separators.
JS `String.prototype.split` on the regex `/[^a-z0-9@.+-]+/i` merges runs of
separators, but the only difference is extra empty fragments here, and the
caller discards every fragment of length < 2. -/
def splitSeps (p : Char → Bool) : List Char → List (List Char)
  | [] => [[]]
  | c :: cs =>
    if p c then [] :: splitSeps p cs
    else
      match splitSeps p cs with
      | [] => [[c]]
      | r :: rs => (c :: r) :: rs

/-- JS `Set.prototype.add` on an insertion-ordered duplicate-free list. -/
def setAdd (l : List String) (a : String) : List String :=
  if a ∈ l then l else l ++ [a]

/-- `toLowerCase`, character by character (extensionally `String.toLower`,
written as a plain list map so that concrete runs reduce in the kernel). -/
def toLowerStr (s : String) : String :=
  String.mk (s.toList.map Char.toLower)

/-- The fragments of one attribute value: lowercase, split on non-keep
characters, drop fragments shorter than 2 (this also drops empty ones,
mirroring the `!t` and `t.length < 2` checks). -/
def fragmentsOf (s : String) : List String :=
  (splitSeps (fun c => !keepChar c) (toLowerStr s).toList).filterMap
    (fun r => if r.length < 2 then none else some (String.mk r))

/-- `tokenize(...values)` from the source: skip falsy values, lowercase,
split, drop short fragments, accumulate into a `Set`, return its elements. -/
def tokenize (values : List (Option String)) : List String :=
  values.foldl
    (fun out v =>
      match v with
      | none => out
      | some s => if s = "" then out else (fragmentsOf s).foldl setAdd out)
    []

/-- A raw directory timestamp attribute: absent, a numeric value (FILETIME
ticks), or a non-numeric string (for which JS `Number(value)` is `NaN`). -/
inductive RawTime where
  | missing : RawTime
  | num : Int → RawTime
  | nonNumeric : String → RawTime
  deriving DecidableEq, Repr

/-- `filetimeToIso`: Windows FILETIME (100ns ticks since 1601-01-01) to an
ISO string, or `null` for missing / zero / non-numeric / non-positive
values.  `iso` renders a millisecond-epoch value as an ISO-8601 string;
the float division `n / 10000` is modelled with exact integer division
(the claims decided here depend only on `some` vs `none`). -/
def filetimeToIso (iso : Int → String) : RawTime → Option String
  | RawTime.missing => none
  | RawTime.nonNumeric _ => none
  | RawTime.num n => if 0 < n then some (iso (n / 10000 - 11644473600000)) else none

/-- Hex digit (either case), as accepted by `/^[0-9a-fA-F-]{36}$/`. -/
def hexChar (c : Char) : Bool :=
  ('0' ≤ c && c ≤ '9') || ('a' ≤ c && c ≤ 'f') || ('A' ≤ c && c ≤ 'F')

/-- The test `/^[0-9a-fA-F-]{36}$/`: exactly 36 characters, each a hex digit
or a dash. -/
def isCanonicalGuid (s : String) : Bool :=
  s.length == 36 && s.toList.all (fun c => hexChar c || c == '-')

/-- `normalizeGUID` for the textual cases: falsy → `null`; a canonical
string-form GUID is lowercased and kept; any other string is hashed to a
hex digest (`hash` stands for the SHA-1 hex digest; the binary-buffer
branch of the source is likewise a digest of external bytes and is not
needed by any claim). -/
def normalizeGUID (hash : String → String) : Option String → Option String
  | none => none
  | some s =>
    if s = "" then none
    else if isCanonicalGuid s then some (toLowerStr s) else some (hash s)

/-- `extractCN`: leading `CN=<component>,` (case-insensitive `CN=`) of a DN,
the whole DN if the pattern does not match, `null` for a falsy DN. -/
def extractCN (dn : String) : Option String :=
  if dn = "" then none
  else
    let cs := dn.toList
    match cs with
    | c :: n :: eq :: rest =>
      if (c == 'C' || c == 'c') && (n == 'N' || n == 'n') && eq == '=' then
        let captured := rest.takeWhile (fun c => c ≠ ',')
        if captured.length ≠ 0 && captured.length < rest.length then
          some (String.mk captured)
        else some dn
      else some dn
    | _ => some dn

/-- The fixed `UAC_DESCRIPTIONS` lookup table. -/
def uacDescriptions (n : Int) : Option String :=
  if n = 1 then some "SCRIPT"
  else if n = 2 then some "ACCOUNTDISABLE"
  else if n = 8 then some "HOMEDIR_REQUIRED"
  else if n = 16 then some "LOCKOUT"
  else if n = 32 then some "PASSWD_NOTREQD"
  else if n = 64 then some "PASSWD_CANT_CHANGE"
  else if n = 128 then some "ENCRYPTED_TEXT_PWD_ALLOWED"
  else if n = 256 then some "TEMP_DUPLICATE_ACCOUNT"
  else if n = 512 then some "NORMAL_ACCOUNT"
  else if n = 514 then some "Disabled Account"
  else if n = 544 then some "Enabled, Password Not Required"
  else if n = 546 then some "Disabled, Password Not Required"
  else if n = 2048 then some "INTERDOMAIN_TRUST_ACCOUNT"
  else if n = 4096 then some "WORKSTATION_TRUST_ACCOUNT"
  else if n = 8192 then some "SERVER_TRUST_ACCOUNT"
  else if n = 65536 then some "DONT_EXPIRE_PASSWORD"
  else if n = 66048 then some "Enabled, Password Doesn't Expire"
  else if n = 66050 then some "Disabled, Password Doesn't Expire"
  else if n = 66082 then some "Disabled, Password Doesn't Expire & Not Required"
  else if n = 131072 then some "MNS_LOGON_ACCOUNT"
  else if n = 262144 then some "SMARTCARD_REQUIRED"
  else if n = 262656 then some "Enabled, Smartcard Required"
  else if n = 262658 then some "Disabled, Smartcard Required"
  else if n = 262690 then some "Disabled, Smartcard Required, Password Not Required"
  else if n = 328194 then some "Disabled, Smartcard Required, Password Doesn't Expire"
  else if n = 328226 then some "Disabled, Smartcard Required, Password Doesn't Expire & Not Required"
  else if n = 524288 then some "TRUSTED_FOR_DELEGATION"
  else if n = 532480 then some "Domain controller"
  else if n = 1048576 then some "NOT_DELEGATED"
  else if n = 2097152 then some "USE_DES_KEY_ONLY"
  else if n = 4194304 then some "DONT_REQ_PREAUTH"
  else if n = 8388608 then some "PASSWORD_EXPIRED"
  else if n = 16777216 then some "TRUSTED_TO_AUTH_FOR_DELEGATION"
  else if n = 67108864 then some "PARTIAL_SECRETS_ACCOUNT"
  else none

/-- `x || null` on an optional string attribute: empty string is falsy. -/
def orNull : Option String → Option String
  | none => none
  | some s => if s = "" then none else some s

/-- Location sub-record of a synced document. -/
structure Location where
  city : Option String
  state : Option String
  country : Option String
  street : Option String
  postalCode : Option String
  deriving DecidableEq, Repr

/-- Phones sub-record of a synced document. -/
structure Phones where
  business : Option String
  mobile : Option String
  ipPhone : Option String
  deriving DecidableEq, Repr

/-- Group memberships: raw DNs and extracted display names
(`extractCN` yields `null` for a falsy member value, hence `Option`). -/
structure Groups where
  dns : List String
  names : List (Option String)
  deriving DecidableEq, Repr

/-- A stored record (`doc` in the source).  Synced documents carry
`isManual = false` (the source omits the field, which reads back falsy);
manually created documents from the administrative path carry `true`. -/
structure Doc where
  dn : String
  guid : Option String
  accountName : Option String
  upn : Option String
  email : Option String
  displayName : Option String
  firstName : Option String
  lastName : Option String
  title : Option String
  department : Option String
  company : Option String
  office : Option String
  location : Location
  phones : Phones
  groups : Groups
  managerDN : Option String
  lastLogon : Option String
  lastLogonTimestamp : Option String
  passwordLastSet : Option String
  whenChanged : Option String
  whenCreated : Option String
  uac : Option Int
  uacDescription : Option String
  isManual : Bool
  syncedAt : String
  deriving DecidableEq, Repr

/-- The `meta:lastSync` run-metadata record (`atTime` models the source's
`at` field, which is a reserved word in Lean). -/
structure Meta where
  atTime : String
  baseDN : String
  upserts : Nat
  deletes : Nat
  ldapCount : Nat
  deriving DecidableEq, Repr

/-- One raw LDAP search entry, restricted to the attributes the module
reads.  Scalar attributes are `Option String` (absent or a string);
`memberOf` is already coerced to a list (`toArray` in the source);
timestamps are `RawTime`; `userAccountControl` is the numeric value
(`Number(uacRaw)`) when present. -/
structure Entry where
  distinguishedName : Option String
  dnAttr : Option String
  objectGUID : Option String
  sAMAccountName : Option String
  userPrincipalName : Option String
  mail : Option String
  displayName : Option String
  givenName : Option String
  sn : Option String
  title : Option String
  department : Option String
  company : Option String
  physicalDeliveryOfficeName : Option String
  l : Option String
  st : Option String
  co : Option String
  telephoneNumber : Option String
  mobile : Option String
  ipPhone : Option String
  streetAddress : Option String
  postalCode : Option String
  memberOf : List String
  manager : Option String
  lastLogon : RawTime
  lastLogonTimestamp : RawTime
  pwdLastSet : RawTime
  whenChanged : Option String
  whenCreated : Option String
  userAccountControl : Option Int
  deriving DecidableEq, Repr

/-- `e.distinguishedName || e.dn`, collapsed to a `String` where `""`
means falsy (the code only ever tests `!dn`). -/
def entryDN (e : Entry) : String :=
  match e.distinguishedName with
  | some s => if s ≠ "" then s else e.dnAttr.getD ""
  | none => e.dnAttr.getD ""

/-- The whole persistent store: the five LMDB collections plus the
run-metadata record. -/
structure SyncState where
  usersByDN : String → Option Doc
  usersByGUID : String → Option Doc
  index : String → Option (List String)
  tokens : String → Option (List String)
  allDNs : List String
  meta : Option Meta

/-- `addDNToToken`: append `dn` to the token's index entry unless already
present (creating the entry if absent). -/
def addDNToToken (s : SyncState) (t dn : String) : SyncState :=
  let cur := (s.index t).getD []
  if dn ∈ cur then s
  else { s with index := Function.update s.index t (some (cur ++ [dn])) }

/-- `removeDNFromToken`: filter `dn` out of the token's entry; delete the
entry outright if it becomes empty; write back only when changed. -/
def removeDNFromToken (s : SyncState) (t dn : String) : SyncState :=
  let cur := (s.index t).getD []
  let next := cur.filter (fun x => x ≠ dn)
  if next = [] then { s with index := Function.update s.index t none }
  else if next.length ≠ cur.length then
    { s with index := Function.update s.index t (some next) }
  else s

/-- `updateIndexForUser dn newTokens`: diff the new token set against the
previously stored one, apply the minimal index add/remove operations, then
overwrite the per-DN token set with the (deduplicated) new one. -/
def updateIndexForUser (s : SyncState) (dn : String) (newTokens : List String) : SyncState :=
  let prevTokens := (s.tokens dn).getD []
  let news := newTokens.foldl setAdd []
  let prevs := prevTokens.foldl setAdd []
  let s1 := news.foldl (fun s t => if t ∈ prevs then s else addDNToToken s t dn) s
  let s2 := prevs.foldl (fun s t => if t ∈ news then s else removeDNFromToken s t dn) s1
  { s2 with tokens := Function.update s2.tokens dn (some news) }

/-- `deleteUser dn`: remove a synced record and all its traces, skipping
falsy DNs, absent records, and manual records. -/
def deleteUser (s : SyncState) (dn : String) : SyncState :=
  if dn = "" then s
  else
    match s.usersByDN dn with
    | none => s
    | some doc =>
      if doc.isManual then s
      else
        let s1 :=
          match doc.guid with
          | some g => { s with usersByGUID := Function.update s.usersByGUID g none }
          | none => s
        let toks := (s1.tokens dn).getD []
        let s2 := toks.foldl (fun s t => removeDNFromToken s t dn) s1
        let s3 := { s2 with tokens := Function.update s2.tokens dn none }
        let s4 := { s3 with usersByDN := Function.update s3.usersByDN dn none }
        { s4 with allDNs := s4.allDNs.filter (fun x => x ≠ dn) }

/-- Normalization of one LDAP entry into the stored document (the `doc`
literal of the processing loop). -/
def normalizeEntry (hash : String → String) (iso : Int → String) (now : String)
    (e : Entry) : Doc :=
  { dn := entryDN e
    guid := normalizeGUID hash e.objectGUID
    accountName := orNull e.sAMAccountName
    upn := orNull e.userPrincipalName
    email := orNull e.mail
    displayName := orNull e.displayName
    firstName := orNull e.givenName
    lastName := orNull e.sn
    title := orNull e.title
    department := orNull e.department
    company := orNull e.company
    office := orNull e.physicalDeliveryOfficeName
    location :=
      { city := orNull e.l
        state := orNull e.st
        country := orNull e.co
        street := orNull e.streetAddress
        postalCode := orNull e.postalCode }
    phones :=
      { business := orNull e.telephoneNumber
        mobile := orNull e.mobile
        ipPhone := orNull e.ipPhone }
    groups := { dns := e.memberOf, names := e.memberOf.map extractCN }
    managerDN := orNull e.manager
    lastLogon := filetimeToIso iso e.lastLogon
    lastLogonTimestamp := filetimeToIso iso e.lastLogonTimestamp
    passwordLastSet := filetimeToIso iso e.pwdLastSet
    whenChanged := orNull e.whenChanged
    whenCreated := orNull e.whenCreated
    uac := e.userAccountControl
    uacDescription :=
      match e.userAccountControl with
      | some u => uacDescriptions u
      | none => none
    isManual := false
    syncedAt := now }

/-- The searchable fields passed to `tokenize` for a document, in source
order, with the group display names spread at the end. -/
def docTokens (doc : Doc) : List String :=
  tokenize
    ([doc.accountName, doc.upn, doc.email, doc.displayName, doc.firstName,
      doc.lastName, doc.title, doc.department, doc.company, doc.office,
      doc.location.city, doc.location.country, doc.phones.business,
      doc.phones.mobile, doc.phones.ipPhone] ++ doc.groups.names)

/-- Accumulator of the processing loop (Phase 3). -/
structure ProcAcc where
  state : SyncState
  seen : List String
  upserts : Nat
  skippedNoDN : Nat
  skippedManual : Nat

/-- One iteration of the processing loop: skip entries without a DN, record
the DN as seen, skip manual collisions, otherwise upsert the normalized
document into the three stores and run the incremental index update. -/
def processEntry (hash : String → String) (iso : Int → String) (now : String)
    (acc : ProcAcc) (e : Entry) : ProcAcc :=
  let dn := entryDN e
  if dn = "" then { acc with skippedNoDN := acc.skippedNoDN + 1 }
  else
    let seen' := setAdd acc.seen dn
    match acc.state.usersByDN dn with
    | some existing =>
      if existing.isManual then
        { acc with seen := seen', skippedManual := acc.skippedManual + 1 }
      else
        let doc := normalizeEntry hash iso now e
        let s1 := { acc.state with usersByDN := Function.update acc.state.usersByDN dn (some doc) }
        let s2 :=
          match doc.guid with
          | some g => { s1 with usersByGUID := Function.update s1.usersByGUID g (some doc) }
          | none => s1
        let s3 := { s2 with allDNs := setAdd s2.allDNs dn }
        let s4 := updateIndexForUser s3 dn (docTokens doc)
        { state := s4, seen := seen', upserts := acc.upserts + 1,
          skippedNoDN := acc.skippedNoDN, skippedManual := acc.skippedManual }
    | none =>
      let doc := normalizeEntry hash iso now e
      let s1 := { acc.state with usersByDN := Function.update acc.state.usersByDN dn (some doc) }
      let s2 :=
        match doc.guid with
        | some g => { s1 with usersByGUID := Function.update s1.usersByGUID g (some doc) }
        | none => s1
      let s3 := { s2 with allDNs := setAdd s2.allDNs dn }
      let s4 := updateIndexForUser s3 dn (docTokens doc)
      { state := s4, seen := seen', upserts := acc.upserts + 1,
        skippedNoDN := acc.skippedNoDN, skippedManual := acc.skippedManual }

/-- Phase 3 over the whole snapshot, in fetch order. -/
def processAll (hash : String → String) (iso : Int → String) (now : String)
    (s₀ : SyncState) (es : List Entry) : ProcAcc :=
  es.foldl (processEntry hash iso now)
    { state := s₀, seen := [], upserts := 0, skippedNoDN := 0, skippedManual := 0 }

/-- Phase 1: load the known-DN set from the `allDNs` keys, skipping falsy
keys and counting them. -/
def loadKnown (s : SyncState) : List String × Nat :=
  s.allDNs.foldl
    (fun acc dn => if dn = "" then (acc.1, acc.2 + 1) else (setAdd acc.1 dn, acc.2))
    ([], 0)

/-- Accumulator of the delta-delete loop (Phase 4). -/
structure DelAcc where
  state : SyncState
  deletes : Nat
  emptySkips : Nat

/-- Phase 4: for every known DN not seen in this pass, run `deleteUser`
and count a delete (whether or not anything was actually removed). -/
def deletePhase (seen : List String) (known : List String) (s : SyncState) : DelAcc :=
  known.foldl
    (fun acc dn =>
      if dn = "" then { acc with emptySkips := acc.emptySkips + 1 }
      else if dn ∈ seen then acc
      else { acc with state := deleteUser acc.state dn, deletes := acc.deletes + 1 })
    { state := s, deletes := 0, emptySkips := 0 }

/-- Result of one complete, successful sync pass. -/
structure PassResult where
  state : SyncState
  known : List String
  seen : List String
  upserts : Nat
  deletes : Nat
  skippedNoDN : Nat
  skippedManual : Nat
  emptyKnownKeys : Nat
  emptyDeleteSkips : Nat
  ldapCount : Nat

/-- One complete pass of `main` over a fetched snapshot: load known DNs,
process every entry, delta-delete, then overwrite the run metadata. -/
def runPass (hash : String → String) (iso : Int → String) (baseDN now : String)
    (s₀ : SyncState) (es : List Entry) : PassResult :=
  let kn := loadKnown s₀
  let p := processAll hash iso now s₀ es
  let d := deletePhase p.seen kn.1 p.state
  let m : Meta :=
    { atTime := now, baseDN := baseDN, upserts := p.upserts, deletes := d.deletes,
      ldapCount := es.length }
  { state := { d.state with meta := some m }
    known := kn.1
    seen := p.seen
    upserts := p.upserts
    deletes := d.deletes
    skippedNoDN := p.skippedNoDN
    skippedManual := p.skippedManual
    emptyKnownKeys := kn.2
    emptyDeleteSkips := d.emptySkips
    ldapCount := es.length }

/-- Where a fatal error strikes a run of `main`, if anywhere.  `processFail
k` / `deleteFail k` mean the error surfaces after `k` completed loop
iterations of the respective phase. -/
inductive FailPoint where
  | noFail : FailPoint
  | preloadFail : FailPoint
  | bindFail : FailPoint
  | searchFail : FailPoint
  | processFail : Nat → FailPoint
  | deleteFail : Nat → FailPoint
  deriving DecidableEq, Repr

/-- Observable outcome of one invocation of `main`: the final store state,
whether the process signals success, how many times the metadata record was
written, and whether each resource-release step ran (per-run log stream
closed, LDAP connection unbound, store handle closed). -/
structure RunOutcome where
  state : SyncState
  exitOk : Bool
  metaWrites : Nat
  fileStreamClosed : Bool
  unbound : Bool
  dbClosed : Bool

/-- `main` under fault projection.  The known-DN preload sits *before* the
`try`/`finally` block in the source (and before the per-run log stream even
exists), so a failure there propagates out of `main` as an unhandled
rejection: the process dies non-zero with no cleanup.  Failures inside the
`try` block reach the `catch` (exit code 1, no metadata write) and the
`finally` (stream closed, connection unbound, store closed).  A successful
run writes the metadata record exactly once, after the delete phase. -/
def mainRun (hash : String → String) (iso : Int → String) (baseDN now : String)
    (fp : FailPoint) (s₀ : SyncState) (es : List Entry) : RunOutcome :=
  match fp with
  | FailPoint.preloadFail =>
    { state := s₀, exitOk := false, metaWrites := 0,
      fileStreamClosed := false, unbound := false, dbClosed := false }
  | FailPoint.bindFail =>
    { state := s₀, exitOk := false, metaWrites := 0,
      fileStreamClosed := true, unbound := true, dbClosed := true }
  | FailPoint.searchFail =>
    { state := s₀, exitOk := false, metaWrites := 0,
      fileStreamClosed := true, unbound := true, dbClosed := true }
  | FailPoint.processFail k =>
    { state := (processAll hash iso now s₀ (es.take k)).state,
      exitOk := false, metaWrites := 0,
      fileStreamClosed := true, unbound := true, dbClosed := true }
  | FailPoint.deleteFail k =>
    let kn := loadKnown s₀
    let p := processAll hash iso now s₀ es
    { state := (deletePhase p.seen (kn.1.take k) p.state).state,
      exitOk := false, metaWrites := 0,
      fileStreamClosed := true, unbound := true, dbClosed := true }
  | FailPoint.noFail =>
    { state := (runPass hash iso baseDN now s₀ es).state,
      exitOk := true, metaWrites := 1,
      fileStreamClosed := true, unbound := true, dbClosed := true }

/-! ## Basic lemmas: JS sets -/

theorem mem_setAdd {l : List String} {a b : String} :
    a ∈ setAdd l b ↔ a ∈ l ∨ a = b := by
  unfold setAdd
  by_cases h : b ∈ l
  · simp only [if_pos h]
    constructor
    · exact Or.inl
    · rintro (h1 | rfl)
      · exact h1
      · exact h
  · simp [if_neg h, List.mem_append]

theorem nodup_setAdd {l : List String} (h : l.Nodup) (b : String) :
    (setAdd l b).Nodup := by
  unfold setAdd
  by_cases hb : b ∈ l
  · simp [if_pos hb, h]
  · simp [if_neg hb, List.nodup_append, h, hb]

theorem mem_foldl_setAdd (l : List String) :
    ∀ (acc : List String) (a : String), a ∈ l.foldl setAdd acc ↔ a ∈ acc ∨ a ∈ l := by
  induction l with
  | nil => simp
  | cons b bs ih =>
    intro acc a
    simp only [List.foldl_cons, ih, mem_setAdd, List.mem_cons]
    tauto

theorem nodup_foldl_setAdd (l : List String) :
    ∀ (acc : List String), acc.Nodup → (l.foldl setAdd acc).Nodup := by
  induction l with
  | nil => intro acc h; simpa using h
  | cons b bs ih =>
    intro acc h
    exact ih _ (nodup_setAdd h b)

/-! ## Basic lemmas: the separator split -/

theorem splitSeps_ne_nil (p : Char → Bool) (l : List Char) : splitSeps p l ≠ [] := by
  cases l with
  | nil => simp [splitSeps]
  | cons c cs =>
    by_cases h : p c
    · simp [splitSeps, h]
    · simp only [splitSeps, if_neg h]
      cases splitSeps p cs <;> simp

theorem splitSeps_all_keep (p : Char → Bool) :
    ∀ (l r : List Char), r ∈ splitSeps p l → ∀ c ∈ r, p c = false := by
  intro l
  induction l with
  | nil =>
    intro r hr
    simp only [splitSeps, List.mem_singleton] at hr
    subst hr; simp
  | cons a as ih =>
    intro r hr
    by_cases h : p a
    · simp only [splitSeps, if_pos h, List.mem_cons] at hr
      rcases hr with rfl | hr
      · simp
      · exact ih r hr
    · simp only [splitSeps, if_neg h] at hr
      rcases hh : splitSeps p as with _ | ⟨h0, t0⟩
      · exact absurd hh (splitSeps_ne_nil p as)
      · rw [hh] at hr
        simp only [List.mem_cons] at hr
        have hh0 : h0 ∈ splitSeps p as := by rw [hh]; exact List.mem_cons_self h0 t0
        rcases hr with rfl | hr
        · intro c hc
          rcases List.mem_cons.1 hc with rfl | hc
          · simpa using h
          · exact ih h0 hh0 c hc
        · refine ih r ?_
          rw [hh]
          exact List.mem_cons_of_mem h0 hr

/-- The head fragment of a split is an initial segment of the list, and what
follows it starts with a separator (or is empty). -/
theorem splitSeps_head (p : Char → Bool) :
    ∀ (l h : List Char) (t : List (List Char)), splitSeps p l = h :: t →
      ∃ rest, l = h ++ rest ∧ (∀ c, rest.head? = some c → p c = true) := by
  intro l
  induction l with
  | nil =>
    intro h t he
    simp only [splitSeps] at he
    cases he
    exact ⟨[], by simp⟩
  | cons a as ih =>
    intro h t he
    by_cases hp : p a
    · simp only [splitSeps, if_pos hp] at he
      cases he
      exact ⟨a :: as, by simp [hp]⟩
    · simp only [splitSeps, if_neg hp] at he
      rcases hh : splitSeps p as with _ | ⟨h0, t0⟩
      · exact absurd hh (splitSeps_ne_nil p as)
      · rw [hh] at he
        obtain ⟨rest, hrest, hsep⟩ := ih h0 t0 hh
        cases he
        exact ⟨rest, by simp [hrest], hsep⟩

/-- Splitting at a separator occurrence splits the surrounding lists
independently. -/
theorem splitSeps_append (p : Char → Bool) {d : Char} (hd : p d = true) :
    ∀ (xs ys : List Char),
      splitSeps p (xs ++ d :: ys) = splitSeps p xs ++ splitSeps p ys := by
  intro xs ys
  induction xs with
  | nil => simp [splitSeps, hd]
  | cons a as ih =>
    by_cases hp : p a
    · simp [splitSeps, hp, ih]
    · simp only [List.cons_append, splitSeps, if_neg hp]
      simp only [List.append_eq]
      rw [ih]
      rcases hh : splitSeps p as with _ | ⟨h0, t0⟩
      · exact absurd hh (splitSeps_ne_nil p as)
      · simp

/-- A list with no separators splits to just itself. -/
theorem splitSeps_all_keep_eq (p : Char → Bool) :
    ∀ (r : List Char), (∀ c ∈ r, p c = false) → splitSeps p r = [r] := by
  intro r
  induction r with
  | nil => intro; rfl
  | cons a as ih =>
    intro h
    have hpa : ¬ p a = true := by simp [h a (List.mem_cons_self a as)]
    simp only [splitSeps, if_neg hpa, ih fun c hc => h c (List.mem_cons_of_mem a hc)]

/-- A fragment other than the first sits between a separator on its left
and a separator (or the end) on its right. -/
theorem splitSeps_tail_decomp (p : Char → Bool) :
    ∀ (l : List Char) (r : List Char), r ∈ (splitSeps p l).tail →
      ∃ pre post, l = pre ++ r ++ post ∧ pre ≠ [] ∧
        (∀ c, pre.getLast? = some c → p c = true) ∧
        (∀ c, post.head? = some c → p c = true) := by
  intro l
  induction l with
  | nil => simp [splitSeps]
  | cons a as ih =>
    intro r hr
    by_cases hp : p a
    · simp only [splitSeps, if_pos hp, List.tail_cons] at hr
      rcases hh : splitSeps p as with _ | ⟨h0, t0⟩
      · exact absurd hh (splitSeps_ne_nil p as)
      · rw [hh] at hr
        rcases List.mem_cons.1 hr with rfl | hr
        · obtain ⟨rest, hrest, hsep⟩ := splitSeps_head p as r t0 hh
          exact ⟨[a], rest, by simp [hrest], by simp, by simp [hp], hsep⟩
        · obtain ⟨pre, post, hdec, hne, hlast, hhead⟩ := ih r (by rw [hh]; exact hr)
          refine ⟨a :: pre, post, by simp [hdec], by simp, ?_, hhead⟩
          intro c hc
          rcases pre with _ | ⟨q, qs⟩
          · exact absurd rfl hne
          · rw [List.getLast?_cons_cons] at hc
            exact hlast c hc
    · simp only [splitSeps, if_neg hp] at hr
      rcases hh : splitSeps p as with _ | ⟨h0, t0⟩
      · exact absurd hh (splitSeps_ne_nil p as)
      · rw [hh] at hr
        simp only [List.tail_cons] at hr
        obtain ⟨pre, post, hdec, hne, hlast, hhead⟩ := ih r (by rw [hh]; exact hr)
        refine ⟨a :: pre, post, by simp [hdec], by simp, ?_, hhead⟩
        intro c hc
        rcases pre with _ | ⟨q, qs⟩
        · exact absurd rfl hne
        · rw [List.getLast?_cons_cons] at hc
          exact hlast c hc

/-- Every fragment of a split sits between a separator (or the start) and a
separator (or the end), and contains no separator. -/
theorem splitSeps_mem_decomp (p : Char → Bool) {l r : List Char}
    (hr : r ∈ splitSeps p l) :
    (∀ c ∈ r, p c = false) ∧
      ∃ pre post, l = pre ++ r ++ post ∧
        (∀ c, pre.getLast? = some c → p c = true) ∧
        (∀ c, post.head? = some c → p c = true) := by
  refine ⟨splitSeps_all_keep p l r hr, ?_⟩
  rcases hh : splitSeps p l with _ | ⟨h0, t0⟩
  · exact absurd hh (splitSeps_ne_nil p l)
  · rw [hh] at hr
    rcases List.mem_cons.1 hr with rfl | hr
    · obtain ⟨rest, hrest, hsep⟩ := splitSeps_head p l r t0 hh
      exact ⟨[], rest, by simp [hrest], by simp, hsep⟩
    · obtain ⟨pre, post, hdec, _, hlast, hhead⟩ :=
        splitSeps_tail_decomp p l r (by rw [hh]; exact hr)
      exact ⟨pre, post, hdec, hlast, hhead⟩

/-- Conversely, every separator-free fragment bounded by separators (or the
ends of the list) is a fragment of the split. -/
theorem splitSeps_mem_of_decomp (p : Char → Bool) {r : List Char}
    (hkeep : ∀ c ∈ r, p c = false) :
    ∀ (pre post : List Char),
      (∀ c, pre.getLast? = some c → p c = true) →
      (∀ c, post.head? = some c → p c = true) →
      r ∈ splitSeps p (pre ++ r ++ post) := by
  have base : ∀ (pre : List Char), (∀ c, pre.getLast? = some c → p c = true) →
      r ∈ splitSeps p (pre ++ r) := by
    intro pre hlast
    rcases List.eq_nil_or_concat pre with rfl | ⟨ys, e, rfl⟩
    · rw [List.nil_append, splitSeps_all_keep_eq p r hkeep]
      exact List.mem_singleton.2 rfl
    · have he : p e = true := by
        apply hlast
        simp [List.getLast?_concat]
      have hsplit : ys.concat e ++ r = ys ++ e :: r := by
        simp [List.concat_eq_append]
      rw [hsplit, splitSeps_append p he, splitSeps_all_keep_eq p r hkeep]
      exact List.mem_append_right _ (List.mem_singleton.2 rfl)
  intro pre post hlast hhead
  rcases post with _ | ⟨d, ds⟩
  · simpa using base pre hlast
  · have hd : p d = true := hhead d rfl
    have : pre ++ r ++ d :: ds = (pre ++ r) ++ d :: ds := by simp
    rw [this, splitSeps_append p hd]
    exact List.mem_append_left _ (base pre hlast)

/-- `tok` is a maximal run of keep-characters of `s`: nonempty, consisting
only of keep characters, and bounded on each side by a non-keep character
or by the end of the string.  This is the spec's description of what the
split on `[^a-z0-9@.+-]+` produces. -/
def isMaxRun (tok : String) (s : String) : Prop :=
  tok.toList ≠ [] ∧ (∀ c ∈ tok.toList, keepChar c = true) ∧
  ∃ pre post, s.toList = pre ++ tok.toList ++ post ∧
    (∀ c, pre.getLast? = some c → keepChar c = false) ∧
    (∀ c, post.head? = some c → keepChar c = false)

theorem mem_fragmentsOf {tok s : String} :
    tok ∈ fragmentsOf s ↔ 2 ≤ tok.length ∧ isMaxRun tok (toLowerStr s) := by
  unfold fragmentsOf
  rw [List.mem_filterMap]
  constructor
  · rintro ⟨r, hr, hf⟩
    by_cases hlen : r.length < 2
    · simp [if_pos hlen] at hf
    · rw [if_neg hlen] at hf
      cases hf
      have htl : (String.mk r).toList = r := rfl
      have hsl : (String.mk r).length = r.length := rfl
      obtain ⟨hkeep, pre, post, hdec, hlast, hhead⟩ := splitSeps_mem_decomp _ hr
      refine ⟨by omega, ?_, ?_, pre, post, by simpa [htl] using hdec, ?_, ?_⟩
      · rw [htl]
        intro hnil
        rw [hnil] at hlen
        simp at hlen
      · rw [htl]
        intro c hc
        simpa using hkeep c hc
      · intro c hc
        simpa using hlast c hc
      · intro c hc
        simpa using hhead c hc
  · rintro ⟨hlen, _, hkeep, pre, post, hdec, hlast, hhead⟩
    refine ⟨tok.toList, ?_, ?_⟩
    · rw [hdec]
      exact splitSeps_mem_of_decomp _ (fun c hc => by simp [hkeep c hc]) pre post
        (fun c hc => by simp [hlast c hc]) (fun c hc => by simp [hhead c hc])
    · have : ¬ tok.toList.length < 2 := by
        have : tok.length = tok.toList.length := rfl
        omega
      rw [if_neg this]
      rfl

theorem mem_tokenize_aux (vs : List (Option String)) :
    ∀ (acc : List String) (tok : String),
      (tok ∈ vs.foldl
        (fun out v =>
          match v with
          | none => out
          | some s => if s = "" then out else (fragmentsOf s).foldl setAdd out)
        acc) ↔
      tok ∈ acc ∨ ∃ s, some s ∈ vs ∧ s ≠ "" ∧ tok ∈ fragmentsOf s := by
  induction vs with
  | nil => simp
  | cons v vsi ih =>
    intro acc tok
    rw [List.foldl_cons]
    cases v with
    | none =>
      rw [ih]
      simp only [List.mem_cons]
      constructor
      · rintro (h | ⟨s, hs, hne, hf⟩)
        · exact Or.inl h
        · exact Or.inr ⟨s, Or.inr hs, hne, hf⟩
      · rintro (h | ⟨s, hs | hs, hne, hf⟩)
        · exact Or.inl h
        · cases hs
        · exact Or.inr ⟨s, hs, hne, hf⟩
    | some s =>
      by_cases hs : s = ""
      · subst hs
        dsimp only
        rw [if_pos rfl, ih]
        constructor
        · rintro (h | ⟨u, hu, hne, hf⟩)
          · exact Or.inl h
          · exact Or.inr ⟨u, List.mem_cons_of_mem _ hu, hne, hf⟩
        · rintro (h | ⟨u, hu, hne, hf⟩)
          · exact Or.inl h
          · rcases List.mem_cons.1 hu with he | hu
            · cases he; simp at hne
            · exact Or.inr ⟨u, hu, hne, hf⟩
      · dsimp only
        rw [if_neg hs, ih, mem_foldl_setAdd]
        constructor
        · rintro ((h | hf) | ⟨u, hu, hne, hf⟩)
          · exact Or.inl h
          · exact Or.inr ⟨s, List.mem_cons_self _ _, hs, hf⟩
          · exact Or.inr ⟨u, List.mem_cons_of_mem _ hu, hne, hf⟩
        · rintro (h | ⟨u, hu, hne, hf⟩)
          · exact Or.inl (Or.inl h)
          · rcases List.mem_cons.1 hu with he | hu
            · cases he
              exact Or.inl (Or.inr hf)
            · exact Or.inr ⟨u, hu, hne, hf⟩

theorem tokenize_nodup_aux (vs : List (Option String)) :
    ∀ (acc : List String), acc.Nodup →
      (vs.foldl
        (fun out v =>
          match v with
          | none => out
          | some s => if s = "" then out else (fragmentsOf s).foldl setAdd out)
        acc).Nodup := by
  induction vs with
  | nil => intro acc h; simpa using h
  | cons v vsi ih =>
    intro acc h
    rw [List.foldl_cons]
    cases v with
    | none => exact ih acc h
    | some s =>
      dsimp only
      by_cases hs : s = ""
      · rw [if_pos hs]; exact ih acc h
      · rw [if_neg hs]
        exact ih _ (nodup_foldl_setAdd _ _ h)

/-- C6 — Tokenizer correctness and determinism: for every ordered list of
attribute values (strings or null), `tokenize` lowercases each value,
splits it on every maximal run of characters outside
`[a-z0-9@.+-]` (case-insensitively), discards fragments shorter than 2
characters, and returns a duplicate-free set of the remaining fragments.
Determinism/purity holds by construction: `tokenize` is a Lean function of
its argument list alone. -/
theorem tokenize_correct (vs : List (Option String)) :
    (tokenize vs).Nodup ∧
      ∀ tok : String, tok ∈ tokenize vs ↔
        (2 ≤ tok.length ∧ ∃ s : String, some s ∈ vs ∧ s ≠ "" ∧ isMaxRun tok (toLowerStr s)) := by
  constructor
  · exact tokenize_nodup_aux vs [] (List.nodup_nil)
  · intro tok
    unfold tokenize
    rw [mem_tokenize_aux]
    simp only [List.not_mem_nil, false_or]
    constructor
    · rintro ⟨s, hs, hne, hf⟩
      obtain ⟨hlen, hrun⟩ := mem_fragmentsOf.1 hf
      exact ⟨hlen, s, hs, hne, hrun⟩
    · rintro ⟨hlen, s, hs, hne, hrun⟩
      exact ⟨s, hs, hne, mem_fragmentsOf.2 ⟨hlen, hrun⟩⟩

/-- C7 — FILETIME conversion: a positive numeric tick value converts to the
ISO-8601 rendering of its millisecond epoch value, and a missing, zero,
negative or non-numeric value converts to `null` — never to an epoch-zero
date (`iso` is the ISO-8601 renderer of a millisecond timestamp). -/
theorem filetimeToIso_correct :
    ∀ iso : Int → String,
      filetimeToIso iso RawTime.missing = none ∧
      (∀ s, filetimeToIso iso (RawTime.nonNumeric s) = none) ∧
      (∀ n : Int, 0 < n →
        filetimeToIso iso (RawTime.num n) = some (iso (n / 10000 - 11644473600000))) ∧
      (∀ n : Int, n ≤ 0 → filetimeToIso iso (RawTime.num n) = none) := by
  intro iso
  refine ⟨rfl, fun s => rfl, fun n hn => ?_, fun n hn => ?_⟩
  · simp [filetimeToIso, hn]
  · simp [filetimeToIso]
    omega

/-! ## Pointwise characterization of the index operations -/

/-- Effect of `addDNToToken` on one index entry. -/
def addDNEntry (dn : String) (o : Option (List String)) : Option (List String) :=
  if dn ∈ o.getD [] then o else some (o.getD [] ++ [dn])

/-- Effect of `removeDNFromToken` on one index entry. -/
def removeDNEntry (dn : String) (o : Option (List String)) : Option (List String) :=
  if (o.getD []).filter (fun x => x ≠ dn) = [] then none
  else some ((o.getD []).filter (fun x => x ≠ dn))

theorem addDNToToken_index (s : SyncState) (t dn t' : String) :
    (addDNToToken s t dn).index t' =
      if t' = t then addDNEntry dn (s.index t) else s.index t' := by
  unfold addDNToToken addDNEntry
  dsimp only
  split
  next h =>
    by_cases ht : t' = t
    · subst ht; simp [h]
    · simp [ht]
  next h =>
    by_cases ht : t' = t
    · subst ht; simp [Function.update_apply, h]
    · simp [Function.update_apply, ht]

theorem removeDNFromToken_index (s : SyncState) (t dn t' : String) :
    (removeDNFromToken s t dn).index t' =
      if t' = t then removeDNEntry dn (s.index t) else s.index t' := by
  unfold removeDNFromToken removeDNEntry
  dsimp only
  split
  next hn =>
    by_cases ht : t' = t
    · subst ht; simp [Function.update_apply, hn]
    · simp [Function.update_apply, ht]
  next hn =>
    split
    next hl =>
      by_cases ht : t' = t
      · subst ht; simp [Function.update_apply, hn]
      · simp [Function.update_apply, ht]
    next hl =>
      push_neg at hl
      have heq : ((s.index t).getD []).filter (fun x => x ≠ dn) = (s.index t).getD [] :=
        (List.filter_sublist _).eq_of_length hl
      by_cases ht : t' = t
      · subst ht
        rcases ho : s.index t' with _ | l
        · rw [ho] at hn
          simp at hn
        · rw [ho] at heq
          simp only [Option.getD_some] at heq
          rw [if_pos rfl]
          simp only [Option.getD_some]
          rw [heq]
      · rw [if_neg ht]

theorem addDNToToken_usersByDN (s : SyncState) (t dn : String) :
    (addDNToToken s t dn).usersByDN = s.usersByDN := by
  unfold addDNToToken; dsimp only; split <;> rfl

theorem addDNToToken_usersByGUID (s : SyncState) (t dn : String) :
    (addDNToToken s t dn).usersByGUID = s.usersByGUID := by
  unfold addDNToToken; dsimp only; split <;> rfl

theorem addDNToToken_tokens (s : SyncState) (t dn : String) :
    (addDNToToken s t dn).tokens = s.tokens := by
  unfold addDNToToken; dsimp only; split <;> rfl

theorem addDNToToken_allDNs (s : SyncState) (t dn : String) :
    (addDNToToken s t dn).allDNs = s.allDNs := by
  unfold addDNToToken; dsimp only; split <;> rfl

theorem addDNToToken_meta (s : SyncState) (t dn : String) :
    (addDNToToken s t dn).meta = s.meta := by
  unfold addDNToToken; dsimp only; split <;> rfl

theorem removeDNFromToken_usersByDN (s : SyncState) (t dn : String) :
    (removeDNFromToken s t dn).usersByDN = s.usersByDN := by
  unfold removeDNFromToken; dsimp only; split
  · rfl
  · split <;> rfl

theorem removeDNFromToken_usersByGUID (s : SyncState) (t dn : String) :
    (removeDNFromToken s t dn).usersByGUID = s.usersByGUID := by
  unfold removeDNFromToken; dsimp only; split
  · rfl
  · split <;> rfl

theorem removeDNFromToken_tokens (s : SyncState) (t dn : String) :
    (removeDNFromToken s t dn).tokens = s.tokens := by
  unfold removeDNFromToken; dsimp only; split
  · rfl
  · split <;> rfl

theorem removeDNFromToken_allDNs (s : SyncState) (t dn : String) :
    (removeDNFromToken s t dn).allDNs = s.allDNs := by
  unfold removeDNFromToken; dsimp only; split
  · rfl
  · split <;> rfl

theorem removeDNFromToken_meta (s : SyncState) (t dn : String) :
    (removeDNFromToken s t dn).meta = s.meta := by
  unfold removeDNFromToken; dsimp only; split
  · rfl
  · split <;> rfl

theorem addDNEntry_idem (dn : String) (o : Option (List String)) :
    addDNEntry dn (addDNEntry dn o) = addDNEntry dn o := by
  unfold addDNEntry
  by_cases h : dn ∈ o.getD []
  · simp [h]
  · simp [h]

theorem removeDNEntry_idem (dn : String) (o : Option (List String)) :
    removeDNEntry dn (removeDNEntry dn o) = removeDNEntry dn o := by
  unfold removeDNEntry
  by_cases h : (o.getD []).filter (fun x => x ≠ dn) = []
  · rw [if_pos h]
    simp
  · have h2 : ((o.getD []).filter (fun x => x ≠ dn)).filter (fun x => x ≠ dn) =
        (o.getD []).filter (fun x => x ≠ dn) :=
      List.filter_eq_self.mpr (fun a ha => (List.mem_filter.1 ha).2)
    rw [if_neg h]
    simp only [Option.getD_some]
    rw [h2, if_neg h]

/-- A projection preserved by every fold step is preserved by the fold. -/
theorem foldl_invariant {σ α β : Type _} (g : σ → β) (f : σ → α → σ)
    (h : ∀ s a, g (f s a) = g s) :
    ∀ (L : List α) (s : σ), g (L.foldl f s) = g s := by
  intro L
  induction L with
  | nil => intro s; rfl
  | cons a as ih => intro s; rw [List.foldl_cons, ih, h]

theorem mem_foldl_setAdd_nil {x : String} {l : List String} :
    x ∈ l.foldl setAdd [] ↔ x ∈ l := by
  rw [mem_foldl_setAdd]
  simp

/-- Effect on one index entry of the "tokens to add" loop of
`updateIndexForUser`. -/
theorem foldl_addDN_index (dn : String) (prevs : List String) :
    ∀ (L : List String) (s : SyncState) (t : String),
      (L.foldl (fun s t => if t ∈ prevs then s else addDNToToken s t dn) s).index t =
        if t ∈ L ∧ t ∉ prevs then addDNEntry dn (s.index t) else s.index t := by
  intro L
  induction L with
  | nil => intro s t; simp
  | cons t0 rest ih =>
    intro s t
    rw [List.foldl_cons]
    by_cases h0 : t0 ∈ prevs
    · rw [if_pos h0, ih]
      have hiff : (t ∈ t0 :: rest ∧ t ∉ prevs) ↔ (t ∈ rest ∧ t ∉ prevs) := by
        simp only [List.mem_cons]
        constructor
        · rintro ⟨rfl | hr, hp⟩
          · exact absurd h0 hp
          · exact ⟨hr, hp⟩
        · rintro ⟨hr, hp⟩
          exact ⟨Or.inr hr, hp⟩
      simp only [hiff]
    · rw [if_neg h0, ih]
      by_cases ht : t = t0
      · subst ht
        simp [addDNToToken_index, addDNEntry_idem, h0]
      · rw [addDNToToken_index, if_neg ht]
        have hiff : (t ∈ t0 :: rest ∧ t ∉ prevs) ↔ (t ∈ rest ∧ t ∉ prevs) := by
          simp only [List.mem_cons]
          constructor
          · rintro ⟨rfl | hr, hp⟩
            · exact absurd rfl ht
            · exact ⟨hr, hp⟩
          · rintro ⟨hr, hp⟩
            exact ⟨Or.inr hr, hp⟩
        simp only [hiff]

/-- Effect on one index entry of the "tokens to remove" loop of
`updateIndexForUser`. -/
theorem foldl_removeDN_index (dn : String) (news : List String) :
    ∀ (L : List String) (s : SyncState) (t : String),
      (L.foldl (fun s t => if t ∈ news then s else removeDNFromToken s t dn) s).index t =
        if t ∈ L ∧ t ∉ news then removeDNEntry dn (s.index t) else s.index t := by
  intro L
  induction L with
  | nil => intro s t; simp
  | cons t0 rest ih =>
    intro s t
    rw [List.foldl_cons]
    by_cases h0 : t0 ∈ news
    · rw [if_pos h0, ih]
      have hiff : (t ∈ t0 :: rest ∧ t ∉ news) ↔ (t ∈ rest ∧ t ∉ news) := by
        simp only [List.mem_cons]
        constructor
        · rintro ⟨rfl | hr, hp⟩
          · exact absurd h0 hp
          · exact ⟨hr, hp⟩
        · rintro ⟨hr, hp⟩
          exact ⟨Or.inr hr, hp⟩
      simp only [hiff]
    · rw [if_neg h0, ih]
      by_cases ht : t = t0
      · subst ht
        simp [removeDNFromToken_index, removeDNEntry_idem, h0]
      · rw [removeDNFromToken_index, if_neg ht]
        have hiff : (t ∈ t0 :: rest ∧ t ∉ news) ↔ (t ∈ rest ∧ t ∉ news) := by
          simp only [List.mem_cons]
          constructor
          · rintro ⟨rfl | hr, hp⟩
            · exact absurd rfl ht
            · exact ⟨hr, hp⟩
          · rintro ⟨hr, hp⟩
            exact ⟨Or.inr hr, hp⟩
        simp only [hiff]

theorem foldl_addDN_tokens (dn : String) (prevs : List String) (L : List String)
    (s : SyncState) :
    (L.foldl (fun s t => if t ∈ prevs then s else addDNToToken s t dn) s).tokens = s.tokens :=
  foldl_invariant _ _ (fun s a => by
    by_cases h : a ∈ prevs
    · rw [if_pos h]
    · rw [if_neg h, addDNToToken_tokens]) L s

theorem foldl_removeDN_tokens (dn : String) (news : List String) (L : List String)
    (s : SyncState) :
    (L.foldl (fun s t => if t ∈ news then s else removeDNFromToken s t dn) s).tokens = s.tokens :=
  foldl_invariant _ _ (fun s a => by
    by_cases h : a ∈ news
    · rw [if_pos h]
    · rw [if_neg h, removeDNFromToken_tokens]) L s

theorem foldl_addDN_usersByDN (dn : String) (prevs : List String) (L : List String)
    (s : SyncState) :
    (L.foldl (fun s t => if t ∈ prevs then s else addDNToToken s t dn) s).usersByDN =
      s.usersByDN :=
  foldl_invariant _ _ (fun s a => by
    by_cases h : a ∈ prevs
    · rw [if_pos h]
    · rw [if_neg h, addDNToToken_usersByDN]) L s

theorem foldl_addDN_usersByGUID (dn : String) (prevs : List String) (L : List String)
    (s : SyncState) :
    (L.foldl (fun s t => if t ∈ prevs then s else addDNToToken s t dn) s).usersByGUID =
      s.usersByGUID :=
  foldl_invariant _ _ (fun s a => by
    by_cases h : a ∈ prevs
    · rw [if_pos h]
    · rw [if_neg h, addDNToToken_usersByGUID]) L s

theorem foldl_addDN_allDNs (dn : String) (prevs : List String) (L : List String)
    (s : SyncState) :
    (L.foldl (fun s t => if t ∈ prevs then s else addDNToToken s t dn) s).allDNs = s.allDNs :=
  foldl_invariant _ _ (fun s a => by
    by_cases h : a ∈ prevs
    · rw [if_pos h]
    · rw [if_neg h, addDNToToken_allDNs]) L s

theorem foldl_addDN_meta (dn : String) (prevs : List String) (L : List String)
    (s : SyncState) :
    (L.foldl (fun s t => if t ∈ prevs then s else addDNToToken s t dn) s).meta = s.meta :=
  foldl_invariant _ _ (fun s a => by
    by_cases h : a ∈ prevs
    · rw [if_pos h]
    · rw [if_neg h, addDNToToken_meta]) L s

theorem foldl_removeDN_usersByDN (dn : String) (news : List String) (L : List String)
    (s : SyncState) :
    (L.foldl (fun s t => if t ∈ news then s else removeDNFromToken s t dn) s).usersByDN =
      s.usersByDN :=
  foldl_invariant _ _ (fun s a => by
    by_cases h : a ∈ news
    · rw [if_pos h]
    · rw [if_neg h, removeDNFromToken_usersByDN]) L s

theorem foldl_removeDN_usersByGUID (dn : String) (news : List String) (L : List String)
    (s : SyncState) :
    (L.foldl (fun s t => if t ∈ news then s else removeDNFromToken s t dn) s).usersByGUID =
      s.usersByGUID :=
  foldl_invariant _ _ (fun s a => by
    by_cases h : a ∈ news
    · rw [if_pos h]
    · rw [if_neg h, removeDNFromToken_usersByGUID]) L s

theorem foldl_removeDN_allDNs (dn : String) (news : List String) (L : List String)
    (s : SyncState) :
    (L.foldl (fun s t => if t ∈ news then s else removeDNFromToken s t dn) s).allDNs =
      s.allDNs :=
  foldl_invariant _ _ (fun s a => by
    by_cases h : a ∈ news
    · rw [if_pos h]
    · rw [if_neg h, removeDNFromToken_allDNs]) L s

theorem foldl_removeDN_meta (dn : String) (news : List String) (L : List String)
    (s : SyncState) :
    (L.foldl (fun s t => if t ∈ news then s else removeDNFromToken s t dn) s).meta = s.meta :=
  foldl_invariant _ _ (fun s a => by
    by_cases h : a ∈ news
    · rw [if_pos h]
    · rw [if_neg h, removeDNFromToken_meta]) L s

/-- `updateIndexForUser` on one index entry: tokens in `new − prev` get
`dn` appended, tokens in `prev − new` get `dn` filtered out (entry deleted
when empty), every other entry is untouched. -/
theorem updateIndexForUser_index (s : SyncState) (dn : String) (ts : List String)
    (t : String) :
    (updateIndexForUser s dn ts).index t =
      if t ∈ ts ∧ t ∉ (s.tokens dn).getD [] then addDNEntry dn (s.index t)
      else if t ∈ (s.tokens dn).getD [] ∧ t ∉ ts then removeDNEntry dn (s.index t)
      else s.index t := by
  unfold updateIndexForUser
  dsimp only
  rw [foldl_removeDN_index, foldl_addDN_index]
  by_cases hN : t ∈ ts
  · by_cases hP : t ∈ (s.tokens dn).getD []
    · simp [mem_foldl_setAdd_nil, hN, hP]
    · simp [mem_foldl_setAdd_nil, hN, hP]
  · by_cases hP : t ∈ (s.tokens dn).getD []
    · simp [mem_foldl_setAdd_nil, hN, hP]
    · simp [mem_foldl_setAdd_nil, hN, hP]

theorem updateIndexForUser_tokens (s : SyncState) (dn : String) (ts : List String)
    (d : String) :
    (updateIndexForUser s dn ts).tokens d =
      if d = dn then some (ts.foldl setAdd []) else s.tokens d := by
  unfold updateIndexForUser
  dsimp only
  rw [Function.update_apply, foldl_removeDN_tokens, foldl_addDN_tokens]

theorem updateIndexForUser_usersByDN (s : SyncState) (dn : String) (ts : List String) :
    (updateIndexForUser s dn ts).usersByDN = s.usersByDN := by
  unfold updateIndexForUser
  dsimp only
  rw [foldl_removeDN_usersByDN, foldl_addDN_usersByDN]

theorem updateIndexForUser_usersByGUID (s : SyncState) (dn : String) (ts : List String) :
    (updateIndexForUser s dn ts).usersByGUID = s.usersByGUID := by
  unfold updateIndexForUser
  dsimp only
  rw [foldl_removeDN_usersByGUID, foldl_addDN_usersByGUID]

theorem updateIndexForUser_allDNs (s : SyncState) (dn : String) (ts : List String) :
    (updateIndexForUser s dn ts).allDNs = s.allDNs := by
  unfold updateIndexForUser
  dsimp only
  rw [foldl_removeDN_allDNs, foldl_addDN_allDNs]

theorem updateIndexForUser_meta (s : SyncState) (dn : String) (ts : List String) :
    (updateIndexForUser s dn ts).meta = s.meta := by
  unfold updateIndexForUser
  dsimp only
  rw [foldl_removeDN_meta, foldl_addDN_meta]

/-- C4 — Index maintainer algorithm: `updateIndexForUser dn newTokens`
appends `dn` exactly to the entries of the tokens in `newTokens − P` (where
`P` is the stored previous token set, empty if absent), creating absent
entries and never storing a duplicate `dn`; removes `dn` exactly from the
entries of the tokens in `P − newTokens`, deleting an entry that becomes
empty instead of storing it empty; touches no other index entry and no
other store; and finally overwrites the per-DN token store with the
deduplicated `newTokens` (JS stores `[...new Set(newTokens)]`), even when
it equals `P`. -/
theorem updateIndexForUser_algorithm (s : SyncState) (dn : String)
    (newTokens : List String) :
    (∀ t, (updateIndexForUser s dn newTokens).index t =
        if t ∈ newTokens ∧ t ∉ (s.tokens dn).getD [] then
          (if dn ∈ (s.index t).getD [] then s.index t
           else some ((s.index t).getD [] ++ [dn]))
        else if t ∈ (s.tokens dn).getD [] ∧ t ∉ newTokens then
          (if ((s.index t).getD []).filter (fun x => x ≠ dn) = [] then none
           else some (((s.index t).getD []).filter (fun x => x ≠ dn)))
        else s.index t) ∧
    (updateIndexForUser s dn newTokens).tokens dn = some (newTokens.foldl setAdd []) ∧
    (∀ d, d ≠ dn → (updateIndexForUser s dn newTokens).tokens d = s.tokens d) ∧
    (updateIndexForUser s dn newTokens).usersByDN = s.usersByDN ∧
    (updateIndexForUser s dn newTokens).usersByGUID = s.usersByGUID ∧
    (updateIndexForUser s dn newTokens).allDNs = s.allDNs ∧
    (updateIndexForUser s dn newTokens).meta = s.meta := by
  refine ⟨fun t => ?_, ?_, fun d hd => ?_, updateIndexForUser_usersByDN s dn newTokens,
    updateIndexForUser_usersByGUID s dn newTokens, updateIndexForUser_allDNs s dn newTokens,
    updateIndexForUser_meta s dn newTokens⟩
  · rw [updateIndexForUser_index]
    simp only [addDNEntry, removeDNEntry]
  · rw [updateIndexForUser_tokens, if_pos rfl]
  · rw [updateIndexForUser_tokens, if_neg hd]

/-! ## Characterization of deleteUser -/

theorem foldl_removeAll_index (dn : String) :
    ∀ (L : List String) (s : SyncState) (t : String),
      (L.foldl (fun s t => removeDNFromToken s t dn) s).index t =
        if t ∈ L then removeDNEntry dn (s.index t) else s.index t := by
  intro L
  induction L with
  | nil => intro s t; simp
  | cons t0 rest ih =>
    intro s t
    rw [List.foldl_cons, ih]
    by_cases ht : t = t0
    · subst ht
      simp [removeDNFromToken_index, removeDNEntry_idem]
    · rw [removeDNFromToken_index, if_neg ht]
      have hiff : t ∈ t0 :: rest ↔ t ∈ rest := by
        simp only [List.mem_cons]
        constructor
        · rintro (rfl | hr)
          · exact absurd rfl ht
          · exact hr
        · exact Or.inr
      simp only [hiff]

theorem foldl_removeAll_tokens (dn : String) (L : List String) (s : SyncState) :
    (L.foldl (fun s t => removeDNFromToken s t dn) s).tokens = s.tokens :=
  foldl_invariant _ _ (fun s a => removeDNFromToken_tokens s a dn) L s

theorem foldl_removeAll_usersByDN (dn : String) (L : List String) (s : SyncState) :
    (L.foldl (fun s t => removeDNFromToken s t dn) s).usersByDN = s.usersByDN :=
  foldl_invariant _ _ (fun s a => removeDNFromToken_usersByDN s a dn) L s

theorem foldl_removeAll_usersByGUID (dn : String) (L : List String) (s : SyncState) :
    (L.foldl (fun s t => removeDNFromToken s t dn) s).usersByGUID = s.usersByGUID :=
  foldl_invariant _ _ (fun s a => removeDNFromToken_usersByGUID s a dn) L s

theorem foldl_removeAll_allDNs (dn : String) (L : List String) (s : SyncState) :
    (L.foldl (fun s t => removeDNFromToken s t dn) s).allDNs = s.allDNs :=
  foldl_invariant _ _ (fun s a => removeDNFromToken_allDNs s a dn) L s

theorem foldl_removeAll_meta (dn : String) (L : List String) (s : SyncState) :
    (L.foldl (fun s t => removeDNFromToken s t dn) s).meta = s.meta :=
  foldl_invariant _ _ (fun s a => removeDNFromToken_meta s a dn) L s

theorem deleteUser_noop_empty (s : SyncState) : deleteUser s "" = s := by
  unfold deleteUser
  rw [if_pos rfl]

theorem deleteUser_noop_absent {s : SyncState} {dn : String}
    (h : s.usersByDN dn = none) : deleteUser s dn = s := by
  unfold deleteUser
  by_cases hdn : dn = ""
  · rw [if_pos hdn]
  · rw [if_neg hdn, h]

theorem deleteUser_noop_manual {s : SyncState} {dn : String} {doc : Doc}
    (h : s.usersByDN dn = some doc) (hm : doc.isManual = true) : deleteUser s dn = s := by
  unfold deleteUser
  by_cases hdn : dn = ""
  · rw [if_pos hdn]
  · rw [if_neg hdn, h]
    dsimp only
    rw [if_pos hm]

/-- The effect of `deleteUser` on every store, in the case where it really
deletes: the record and its token set vanish, `dn` is filtered out of the
index entries of its stored tokens, the secondary-key entry at the record's
guid (if any) vanishes, and the DN leaves the known-identifier store. -/
theorem deleteUser_char (s : SyncState) (dn : String) (doc : Doc)
    (hdn : dn ≠ "") (hdoc : s.usersByDN dn = some doc) (hm : doc.isManual = false) :
    (∀ d, (deleteUser s dn).usersByDN d = if d = dn then none else s.usersByDN d) ∧
    (∀ d, (deleteUser s dn).tokens d = if d = dn then none else s.tokens d) ∧
    (∀ t, (deleteUser s dn).index t =
        if t ∈ (s.tokens dn).getD [] then removeDNEntry dn (s.index t) else s.index t) ∧
    (∀ g, (deleteUser s dn).usersByGUID g =
        if doc.guid = some g then none else s.usersByGUID g) ∧
    (deleteUser s dn).allDNs = s.allDNs.filter (fun x => x ≠ dn) ∧
    (deleteUser s dn).meta = s.meta := by
  unfold deleteUser
  rw [if_neg hdn, hdoc]
  dsimp only
  rw [if_neg (by rw [hm]; exact Bool.false_ne_true)]
  rcases hg : doc.guid with _ | g0
  · dsimp only
    refine ⟨fun d => ?_, fun d => ?_, fun t => ?_, fun g => ?_, ?_, ?_⟩
    · rw [Function.update_apply, foldl_removeAll_usersByDN]
    · rw [Function.update_apply, foldl_removeAll_tokens]
    · rw [foldl_removeAll_index]
    · rw [foldl_removeAll_usersByGUID]
      simp
    · rw [foldl_removeAll_allDNs]
    · rw [foldl_removeAll_meta]
  · dsimp only
    refine ⟨fun d => ?_, fun d => ?_, fun t => ?_, fun g => ?_, ?_, ?_⟩
    · rw [Function.update_apply, foldl_removeAll_usersByDN]
    · rw [Function.update_apply, foldl_removeAll_tokens]
    · rw [foldl_removeAll_index]
    · rw [foldl_removeAll_usersByGUID]
      dsimp only
      rw [Function.update_apply]
      by_cases hgg : g = g0
      · subst hgg
        simp
      · have : ¬ (some g0 = some g) := by
          intro hcon
          exact hgg (Option.some.inj hcon).symm
        simp [hgg, this]
    · rw [foldl_removeAll_allDNs]
    · rw [foldl_removeAll_meta]

/-! ## The index-consistency invariant -/

/-- Index consistency: a DN appears in a token's index entry exactly when
that token is in the DN's stored token set, and no stored index entry is an
empty collection. -/
def consistent (s : SyncState) : Prop :=
  (∀ t d, d ∈ (s.index t).getD [] ↔ t ∈ (s.tokens d).getD []) ∧
  (∀ t, s.index t ≠ some [])

theorem mem_addDNEntry_self (dn : String) (o : Option (List String)) :
    dn ∈ (addDNEntry dn o).getD [] := by
  unfold addDNEntry
  by_cases h : dn ∈ o.getD []
  · rw [if_pos h]
    exact h
  · rw [if_neg h]
    simp

theorem mem_addDNEntry_other {d dn : String} (hd : d ≠ dn) (o : Option (List String)) :
    d ∈ (addDNEntry dn o).getD [] ↔ d ∈ o.getD [] := by
  unfold addDNEntry
  by_cases h : dn ∈ o.getD []
  · rw [if_pos h]
  · rw [if_neg h]
    simp [hd]

theorem not_mem_removeDNEntry_self (dn : String) (o : Option (List String)) :
    dn ∉ (removeDNEntry dn o).getD [] := by
  unfold removeDNEntry
  by_cases h : (o.getD []).filter (fun x => x ≠ dn) = []
  · rw [if_pos h]
    simp
  · rw [if_neg h]
    simp

theorem mem_removeDNEntry_other {d dn : String} (hd : d ≠ dn) (o : Option (List String)) :
    d ∈ (removeDNEntry dn o).getD [] ↔ d ∈ o.getD [] := by
  unfold removeDNEntry
  by_cases h : (o.getD []).filter (fun x => x ≠ dn) = []
  · rw [if_pos h]
    simp only [Option.getD_none, List.not_mem_nil, false_iff]
    intro hmem
    have : d ∈ (o.getD []).filter (fun x => x ≠ dn) := by
      rw [List.mem_filter]
      exact ⟨hmem, by simp [hd]⟩
    rw [h] at this
    exact List.not_mem_nil d this
  · rw [if_neg h]
    simp [List.mem_filter, hd]

theorem addDNEntry_ne_empty (dn : String) (o : Option (List String)) :
    addDNEntry dn o ≠ some [] := by
  unfold addDNEntry
  by_cases h : dn ∈ o.getD []
  · rw [if_pos h]
    rcases o with _ | l
    · simp at h
    · simp only [Option.getD_some] at h
      intro hcon
      have hl : l = [] := Option.some.inj hcon
      subst hl
      simp at h
  · rw [if_neg h]
    simp

theorem removeDNEntry_ne_empty (dn : String) (o : Option (List String)) :
    removeDNEntry dn o ≠ some [] := by
  unfold removeDNEntry
  by_cases h : (o.getD []).filter (fun x => x ≠ dn) = []
  · rw [if_pos h]
    simp
  · rw [if_neg h]
    intro hcon
    exact h (Option.some.inj hcon)

/-- C2 — Index consistency invariant: from a consistent store, both store
operations of the sync engine — `updateIndexForUser` (Processing) and
`deleteUser` (Deleting) — preserve the invariant that a DN appears in a
token's index entry iff the token is in that DN's stored token set, and
that no index entry is an empty collection (an entry becoming empty is
removed rather than stored). -/
theorem syncOps_preserve_index_consistency (s : SyncState) (dn : String)
    (ts : List String) (h : consistent s) :
    consistent (updateIndexForUser s dn ts) ∧ consistent (deleteUser s dn) := by
  obtain ⟨hmem, hne⟩ := h
  constructor
  · constructor
    · intro t d
      rw [updateIndexForUser_index, updateIndexForUser_tokens]
      by_cases hd : d = dn
      · subst hd
        rw [if_pos rfl]
        simp only [Option.getD_some]
        by_cases hN : t ∈ ts
        · by_cases hP : t ∈ (s.tokens d).getD []
          · have : ¬ (t ∈ ts ∧ t ∉ (s.tokens d).getD []) := by tauto
            rw [if_neg this, if_neg (by tauto)]
            rw [hmem t d]
            simp [mem_foldl_setAdd_nil, hN, hP]
          · rw [if_pos ⟨hN, hP⟩]
            simp only [mem_foldl_setAdd_nil]
            exact ⟨fun _ => hN, fun _ => mem_addDNEntry_self d (s.index t)⟩
        · by_cases hP : t ∈ (s.tokens d).getD []
          · rw [if_neg (by tauto), if_pos ⟨hP, hN⟩]
            simp only [mem_foldl_setAdd_nil]
            constructor
            · intro hcon
              exact absurd hcon (not_mem_removeDNEntry_self d (s.index t))
            · intro hcon
              exact absurd hcon hN
          · rw [if_neg (by tauto), if_neg (by tauto)]
            rw [hmem t d]
            simp [mem_foldl_setAdd_nil, hN, hP]
      · rw [if_neg hd]
        by_cases c1 : t ∈ ts ∧ t ∉ (s.tokens dn).getD []
        · rw [if_pos c1, mem_addDNEntry_other hd]
          exact hmem t d
        · rw [if_neg c1]
          by_cases c2 : t ∈ (s.tokens dn).getD [] ∧ t ∉ ts
          · rw [if_pos c2, mem_removeDNEntry_other hd]
            exact hmem t d
          · rw [if_neg c2]
            exact hmem t d
    · intro t
      rw [updateIndexForUser_index]
      by_cases c1 : t ∈ ts ∧ t ∉ (s.tokens dn).getD []
      · rw [if_pos c1]
        exact addDNEntry_ne_empty dn (s.index t)
      · rw [if_neg c1]
        by_cases c2 : t ∈ (s.tokens dn).getD [] ∧ t ∉ ts
        · rw [if_pos c2]
          exact removeDNEntry_ne_empty dn (s.index t)
        · rw [if_neg c2]
          exact hne t
  · by_cases hdn : dn = ""
    · subst hdn
      rw [deleteUser_noop_empty]
      exact ⟨hmem, hne⟩
    · rcases hdoc : s.usersByDN dn with _ | doc
      · rw [deleteUser_noop_absent hdoc]
        exact ⟨hmem, hne⟩
      · rcases hman : doc.isManual with _ | _
        · obtain ⟨hBD, hTok, hIdx, hGU, hDNs, hMeta⟩ :=
            deleteUser_char s dn doc hdn hdoc hman
          constructor
          · intro t d
            rw [hIdx t, hTok d]
            by_cases hd : d = dn
            · subst hd
              rw [if_pos rfl]
              simp only [Option.getD_none, List.not_mem_nil, iff_false]
              by_cases hT : t ∈ (s.tokens d).getD []
              · rw [if_pos hT]
                exact not_mem_removeDNEntry_self d (s.index t)
              · rw [if_neg hT]
                rw [hmem t d]
                exact hT
            · rw [if_neg hd]
              by_cases hT : t ∈ (s.tokens dn).getD []
              · rw [if_pos hT, mem_removeDNEntry_other hd]
                exact hmem t d
              · rw [if_neg hT]
                exact hmem t d
          · intro t
            rw [hIdx t]
            by_cases hT : t ∈ (s.tokens dn).getD []
            · rw [if_pos hT]
              exact removeDNEntry_ne_empty dn (s.index t)
            · rw [if_neg hT]
              exact hne t
        · rw [deleteUser_noop_manual hdoc hman]
          exact ⟨hmem, hne⟩

/-- The empty store. -/
def emptyState : SyncState :=
  { usersByDN := fun _ => none
    usersByGUID := fun _ => none
    index := fun _ => none
    tokens := fun _ => none
    allDNs := []
    meta := none }

theorem consistent_emptyState : consistent emptyState := by
  constructor
  · intro t d
    simp [emptyState]
  · intro t
    simp [emptyState]

/-- Witness for C2 at a concrete consistent store. -/
theorem syncOps_preserve_index_consistency_witness :
    consistent emptyState ∧
      (consistent (updateIndexForUser emptyState "CN=A,OU=X" ["ab", "cd"]) ∧
        consistent (deleteUser emptyState "CN=A,OU=X")) :=
  ⟨consistent_emptyState,
    syncOps_preserve_index_consistency emptyState "CN=A,OU=X" ["ab", "cd"]
      consistent_emptyState⟩

/-! ## Processing-phase lemmas -/

/-- Whether the store currently holds a manual record at `d`. -/
def isManualAt (s : SyncState) (d : String) : Bool :=
  match s.usersByDN d with
  | some ex => ex.isManual
  | none => false

/-- The non-empty DNs of a snapshot, in order (the seen set's members). -/
def dnsOf (es : List Entry) : List String :=
  (es.map entryDN).filter (fun x => x ≠ "")

/-- The last snapshot entry carrying a given DN, if any: the entry whose
normalization the processing loop leaves in the store at that DN. -/
def lastEntryAt (es : List Entry) (d : String) : Option Entry :=
  (es.filter (fun e => entryDN e = d)).getLast?

/-- `processEntry` as a three-way case split: skip on a falsy DN, skip on a
manual collision, otherwise upsert and update the index. -/
theorem processEntry_eq (hash : String → String) (iso : Int → String) (now : String)
    (acc : ProcAcc) (e : Entry) :
    processEntry hash iso now acc e =
      if entryDN e = "" then { acc with skippedNoDN := acc.skippedNoDN + 1 }
      else if isManualAt acc.state (entryDN e) = true then
        { acc with
          seen := setAdd acc.seen (entryDN e)
          skippedManual := acc.skippedManual + 1 }
      else
        { state :=
            updateIndexForUser
              { acc.state with
                usersByDN :=
                  Function.update acc.state.usersByDN (entryDN e)
                    (some (normalizeEntry hash iso now e))
                usersByGUID :=
                  (match (normalizeEntry hash iso now e).guid with
                    | some g =>
                      Function.update acc.state.usersByGUID g
                        (some (normalizeEntry hash iso now e))
                    | none => acc.state.usersByGUID)
                allDNs := setAdd acc.state.allDNs (entryDN e) }
              (entryDN e) (docTokens (normalizeEntry hash iso now e))
          seen := setAdd acc.seen (entryDN e)
          upserts := acc.upserts + 1
          skippedNoDN := acc.skippedNoDN
          skippedManual := acc.skippedManual } := by
  unfold processEntry isManualAt
  by_cases hdn : entryDN e = ""
  · rw [if_pos hdn, if_pos hdn]
  · rw [if_neg hdn, if_neg hdn]
    rcases hdoc : acc.state.usersByDN (entryDN e) with _ | ex
    · dsimp only
      rcases hg : (normalizeEntry hash iso now e).guid with _ | g0 <;> simp [hg]
    · dsimp only
      rcases hman : ex.isManual with _ | _
      · simp only [Bool.false_eq_true, if_false]
        rcases hg : (normalizeEntry hash iso now e).guid with _ | g0 <;> simp [hg]
      · simp

theorem updateIndexForUser_index_mem_other {d dn : String} (hd : d ≠ dn)
    (s : SyncState) (ts : List String) (t : String) :
    (d ∈ ((updateIndexForUser s dn ts).index t).getD []) ↔ d ∈ (s.index t).getD [] := by
  rw [updateIndexForUser_index]
  by_cases c1 : t ∈ ts ∧ t ∉ (s.tokens dn).getD []
  · rw [if_pos c1, mem_addDNEntry_other hd]
  · rw [if_neg c1]
    by_cases c2 : t ∈ (s.tokens dn).getD [] ∧ t ∉ ts
    · rw [if_pos c2, mem_removeDNEntry_other hd]
    · rw [if_neg c2]

theorem processEntry_seen (hash : String → String) (iso : Int → String) (now : String)
    (acc : ProcAcc) (e : Entry) :
    (processEntry hash iso now acc e).seen =
      if entryDN e = "" then acc.seen else setAdd acc.seen (entryDN e) := by
  rw [processEntry_eq]
  by_cases h1 : entryDN e = ""
  · rw [if_pos h1, if_pos h1]
  · rw [if_neg h1, if_neg h1]
    by_cases h2 : isManualAt acc.state (entryDN e) = true
    · rw [if_pos h2]
    · rw [if_neg h2]

theorem processEntry_meta (hash : String → String) (iso : Int → String) (now : String)
    (acc : ProcAcc) (e : Entry) :
    (processEntry hash iso now acc e).state.meta = acc.state.meta := by
  rw [processEntry_eq]
  by_cases h1 : entryDN e = ""
  · rw [if_pos h1]
  · rw [if_neg h1]
    by_cases h2 : isManualAt acc.state (entryDN e) = true
    · rw [if_pos h2]
    · rw [if_neg h2]
      dsimp only
      rw [updateIndexForUser_meta]

theorem processEntry_usersByDN (hash : String → String) (iso : Int → String)
    (now : String) (acc : ProcAcc) (e : Entry) (d : String) :
    (processEntry hash iso now acc e).state.usersByDN d =
      if entryDN e = d ∧ d ≠ "" ∧ isManualAt acc.state d = false
      then some (normalizeEntry hash iso now e)
      else acc.state.usersByDN d := by
  rw [processEntry_eq]
  by_cases h1 : entryDN e = ""
  · rw [if_pos h1]
    have hc : ¬(entryDN e = d ∧ d ≠ "" ∧ isManualAt acc.state d = false) := by
      rintro ⟨rfl, hd, _⟩
      exact hd h1
    rw [if_neg hc]
  · rw [if_neg h1]
    by_cases h2 : isManualAt acc.state (entryDN e) = true
    · rw [if_pos h2]
      have hc : ¬(entryDN e = d ∧ d ≠ "" ∧ isManualAt acc.state d = false) := by
        rintro ⟨rfl, _, hm⟩
        rw [h2] at hm
        cases hm
      rw [if_neg hc]
    · rw [if_neg h2]
      dsimp only
      rw [updateIndexForUser_usersByDN]
      dsimp only
      rw [Function.update_apply]
      by_cases hde : d = entryDN e
      · subst hde
        rw [if_pos rfl, if_pos ⟨rfl, h1, by simpa using h2⟩]
      · rw [if_neg hde, if_neg (by rintro ⟨he, _, _⟩; exact hde he.symm)]

theorem processEntry_tokens (hash : String → String) (iso : Int → String)
    (now : String) (acc : ProcAcc) (e : Entry) (d : String) :
    (processEntry hash iso now acc e).state.tokens d =
      if entryDN e = d ∧ d ≠ "" ∧ isManualAt acc.state d = false
      then some ((docTokens (normalizeEntry hash iso now e)).foldl setAdd [])
      else acc.state.tokens d := by
  rw [processEntry_eq]
  by_cases h1 : entryDN e = ""
  · rw [if_pos h1]
    have hc : ¬(entryDN e = d ∧ d ≠ "" ∧ isManualAt acc.state d = false) := by
      rintro ⟨rfl, hd, _⟩
      exact hd h1
    rw [if_neg hc]
  · rw [if_neg h1]
    by_cases h2 : isManualAt acc.state (entryDN e) = true
    · rw [if_pos h2]
      have hc : ¬(entryDN e = d ∧ d ≠ "" ∧ isManualAt acc.state d = false) := by
        rintro ⟨rfl, _, hm⟩
        rw [h2] at hm
        cases hm
      rw [if_neg hc]
    · rw [if_neg h2]
      dsimp only
      rw [updateIndexForUser_tokens]
      by_cases hde : d = entryDN e
      · subst hde
        rw [if_pos rfl, if_pos ⟨rfl, h1, by simpa using h2⟩]
      · rw [if_neg hde, if_neg (by rintro ⟨he, _, _⟩; exact hde he.symm)]

theorem processEntry_isManualAt (hash : String → String) (iso : Int → String)
    (now : String) (acc : ProcAcc) (e : Entry) (d : String) :
    isManualAt (processEntry hash iso now acc e).state d = isManualAt acc.state d := by
  unfold isManualAt
  rw [processEntry_usersByDN]
  by_cases hc : entryDN e = d ∧ d ≠ "" ∧ isManualAt acc.state d = false
  · rw [if_pos hc]
    obtain ⟨_, _, hm⟩ := hc
    unfold isManualAt at hm
    dsimp only [normalizeEntry]
    exact hm.symm
  · rw [if_neg hc]

theorem processEntry_usersByGUID (hash : String → String) (iso : Int → String)
    (now : String) (acc : ProcAcc) (e : Entry) (g : String) :
    (processEntry hash iso now acc e).state.usersByGUID g =
      if entryDN e ≠ "" ∧ isManualAt acc.state (entryDN e) = false ∧
          (normalizeEntry hash iso now e).guid = some g
      then some (normalizeEntry hash iso now e)
      else acc.state.usersByGUID g := by
  rw [processEntry_eq]
  by_cases h1 : entryDN e = ""
  · rw [if_pos h1, if_neg (by rintro ⟨hd, _, _⟩; exact hd h1)]
  · rw [if_neg h1]
    by_cases h2 : isManualAt acc.state (entryDN e) = true
    · rw [if_pos h2, if_neg (by rintro ⟨_, hm, _⟩; rw [h2] at hm; cases hm)]
    · rw [if_neg h2]
      dsimp only
      rw [updateIndexForUser_usersByGUID]
      have h2f : isManualAt acc.state (entryDN e) = false := by simpa using h2
      rcases hg : (normalizeEntry hash iso now e).guid with _ | g0
      · dsimp only
        rw [if_neg (by rintro ⟨_, _, hcon⟩; cases hcon)]
      · dsimp only
        rw [Function.update_apply]
        by_cases hgg : g = g0
        · subst hgg
          rw [if_pos rfl, if_pos ⟨h1, h2f, rfl⟩]
        · rw [if_neg hgg, if_neg (by
            rintro ⟨_, _, hcon⟩
            exact hgg (Option.some.inj hcon).symm)]

theorem processEntry_allDNs (hash : String → String) (iso : Int → String)
    (now : String) (acc : ProcAcc) (e : Entry) :
    (processEntry hash iso now acc e).state.allDNs =
      if entryDN e ≠ "" ∧ isManualAt acc.state (entryDN e) = false
      then setAdd acc.state.allDNs (entryDN e)
      else acc.state.allDNs := by
  rw [processEntry_eq]
  by_cases h1 : entryDN e = ""
  · rw [if_pos h1, if_neg (by rintro ⟨hd, _⟩; exact hd h1)]
  · rw [if_neg h1]
    by_cases h2 : isManualAt acc.state (entryDN e) = true
    · rw [if_pos h2, if_neg (by rintro ⟨_, hm⟩; rw [h2] at hm; cases hm)]
    · rw [if_neg h2]
      dsimp only
      rw [updateIndexForUser_allDNs]
      rw [if_pos ⟨h1, by simpa using h2⟩]

theorem processEntry_index_mem (hash : String → String) (iso : Int → String)
    (now : String) (acc : ProcAcc) (e : Entry) {d : String} (hne : entryDN e ≠ d)
    (t : String) :
    (d ∈ ((processEntry hash iso now acc e).state.index t).getD []) ↔
      d ∈ (acc.state.index t).getD [] := by
  rw [processEntry_eq]
  by_cases h1 : entryDN e = ""
  · rw [if_pos h1]
  · rw [if_neg h1]
    by_cases h2 : isManualAt acc.state (entryDN e) = true
    · rw [if_pos h2]
    · rw [if_neg h2]
      dsimp only
      exact updateIndexForUser_index_mem_other (fun h => hne h.symm) _ _ t

theorem processEntry_state_eq_of_skip (hash : String → String) (iso : Int → String)
    (now : String) (acc : ProcAcc) (e : Entry)
    (h : entryDN e = "" ∨ isManualAt acc.state (entryDN e) = true) :
    (processEntry hash iso now acc e).state = acc.state := by
  rw [processEntry_eq]
  by_cases h1 : entryDN e = ""
  · rw [if_pos h1]
  · rw [if_neg h1]
    rcases h with h | h
    · exact absurd h h1
    · rw [if_pos h]

theorem lastEntryAt_nil (d : String) : lastEntryAt [] d = none := rfl

theorem lastEntryAt_cons_ne {e : Entry} {d : String} (h : entryDN e ≠ d)
    (rest : List Entry) : lastEntryAt (e :: rest) d = lastEntryAt rest d := by
  unfold lastEntryAt
  rw [List.filter_cons_of_neg (by simp [h])]

theorem lastEntryAt_cons_eq {e : Entry} {d : String} (h : entryDN e = d)
    (rest : List Entry) :
    lastEntryAt (e :: rest) d =
      (match lastEntryAt rest d with
        | none => some e
        | some e' => some e') := by
  unfold lastEntryAt
  rw [List.filter_cons_of_pos (by simp [h])]
  rcases hrest : rest.filter (fun e => entryDN e = d) with _ | ⟨r, rs⟩
  · rfl
  · rw [List.getLast?_cons_cons]
    rcases hlast : (r :: rs).getLast? with _ | e'
    · rw [List.getLast?_eq_none_iff] at hlast
      cases hlast
    · rfl

theorem lastEntryAt_eq_none_iff {es : List Entry} {d : String} :
    lastEntryAt es d = none ↔ ∀ e ∈ es, entryDN e ≠ d := by
  unfold lastEntryAt
  rw [List.getLast?_eq_none_iff, List.filter_eq_nil_iff]
  simp

theorem mem_dnsOf {d : String} {es : List Entry} :
    d ∈ dnsOf es ↔ d ≠ "" ∧ ∃ e ∈ es, entryDN e = d := by
  unfold dnsOf
  rw [List.mem_filter]
  simp only [List.mem_map, decide_eq_true_eq]
  constructor
  · rintro ⟨⟨e, he, rfl⟩, hne⟩
    exact ⟨hne, e, he, rfl⟩
  · rintro ⟨hne, e, he, rfl⟩
    exact ⟨⟨e, he, rfl⟩, hne⟩

theorem dnsOf_cons (e : Entry) (rest : List Entry) :
    dnsOf (e :: rest) =
      if entryDN e = "" then dnsOf rest else entryDN e :: dnsOf rest := by
  unfold dnsOf
  rw [List.map_cons]
  by_cases h : entryDN e = ""
  · rw [if_pos h, List.filter_cons_of_neg (by simp [h])]
  · rw [if_neg h, List.filter_cons_of_pos (by simp [h])]

theorem processFold_isManualAt (hash : String → String) (iso : Int → String)
    (now : String) :
    ∀ (es : List Entry) (acc : ProcAcc) (d : String),
      isManualAt (es.foldl (processEntry hash iso now) acc).state d =
        isManualAt acc.state d := by
  intro es
  induction es with
  | nil => intro acc d; rfl
  | cons e rest ih =>
    intro acc d
    rw [List.foldl_cons, ih, processEntry_isManualAt]

theorem processFold_meta (hash : String → String) (iso : Int → String) (now : String) :
    ∀ (es : List Entry) (acc : ProcAcc),
      (es.foldl (processEntry hash iso now) acc).state.meta = acc.state.meta := by
  intro es
  induction es with
  | nil => intro acc; rfl
  | cons e rest ih =>
    intro acc
    rw [List.foldl_cons, ih, processEntry_meta]

theorem processFold_seen_mem (hash : String → String) (iso : Int → String)
    (now : String) :
    ∀ (es : List Entry) (acc : ProcAcc) (d : String),
      d ∈ (es.foldl (processEntry hash iso now) acc).seen ↔
        d ∈ acc.seen ∨ d ∈ dnsOf es := by
  intro es
  induction es with
  | nil => intro acc d; simp [dnsOf]
  | cons e rest ih =>
    intro acc d
    rw [List.foldl_cons, ih, dnsOf_cons]
    rw [processEntry_seen]
    by_cases h : entryDN e = ""
    · rw [if_pos h, if_pos h]
    · rw [if_neg h, if_neg h]
      rw [mem_setAdd]
      simp only [List.mem_cons]
      tauto

theorem processFold_usersByDN (hash : String → String) (iso : Int → String)
    (now : String) :
    ∀ (es : List Entry) (acc : ProcAcc) (d : String), d ≠ "" →
      (es.foldl (processEntry hash iso now) acc).state.usersByDN d =
        if isManualAt acc.state d = true then acc.state.usersByDN d
        else
          (match lastEntryAt es d with
            | none => acc.state.usersByDN d
            | some e => some (normalizeEntry hash iso now e)) := by
  intro es
  induction es with
  | nil =>
    intro acc d _
    rw [lastEntryAt_nil]
    by_cases hm : isManualAt acc.state d = true
    · rw [if_pos hm]
      rfl
    · rw [if_neg hm]
      rfl
  | cons e rest ih =>
    intro acc d hd
    rw [List.foldl_cons, ih _ d hd, processEntry_isManualAt, processEntry_usersByDN]
    by_cases hm : isManualAt acc.state d = true
    · rw [if_pos hm, if_pos hm,
        if_neg (by rintro ⟨_, _, hmf⟩; rw [hm] at hmf; cases hmf)]
    · rw [if_neg hm, if_neg hm]
      have hmf : isManualAt acc.state d = false := by simpa using hm
      by_cases he : entryDN e = d
      · rw [if_pos ⟨he, hd, hmf⟩, lastEntryAt_cons_eq he]
        rcases lastEntryAt rest d with _ | e' <;> rfl
      · rw [if_neg (by rintro ⟨hcon, _, _⟩; exact he hcon), lastEntryAt_cons_ne he]

theorem processFold_tokens (hash : String → String) (iso : Int → String)
    (now : String) :
    ∀ (es : List Entry) (acc : ProcAcc) (d : String), d ≠ "" →
      (es.foldl (processEntry hash iso now) acc).state.tokens d =
        if isManualAt acc.state d = true then acc.state.tokens d
        else
          (match lastEntryAt es d with
            | none => acc.state.tokens d
            | some e =>
              some ((docTokens (normalizeEntry hash iso now e)).foldl setAdd [])) := by
  intro es
  induction es with
  | nil =>
    intro acc d _
    rw [lastEntryAt_nil]
    by_cases hm : isManualAt acc.state d = true
    · rw [if_pos hm]
      rfl
    · rw [if_neg hm]
      rfl
  | cons e rest ih =>
    intro acc d hd
    rw [List.foldl_cons, ih _ d hd, processEntry_isManualAt, processEntry_tokens]
    by_cases hm : isManualAt acc.state d = true
    · rw [if_pos hm, if_pos hm,
        if_neg (by rintro ⟨_, _, hmf⟩; rw [hm] at hmf; cases hmf)]
    · rw [if_neg hm, if_neg hm]
      have hmf : isManualAt acc.state d = false := by simpa using hm
      by_cases he : entryDN e = d
      · rw [if_pos ⟨he, hd, hmf⟩, lastEntryAt_cons_eq he]
        rcases lastEntryAt rest d with _ | e' <;> rfl
      · rw [if_neg (by rintro ⟨hcon, _, _⟩; exact he hcon), lastEntryAt_cons_ne he]

theorem processFold_index_mem_manual (hash : String → String) (iso : Int → String)
    (now : String) :
    ∀ (es : List Entry) (acc : ProcAcc) (d : String),
      isManualAt acc.state d = true →
      ∀ t, (d ∈ ((es.foldl (processEntry hash iso now) acc).state.index t).getD []) ↔
        d ∈ (acc.state.index t).getD [] := by
  intro es
  induction es with
  | nil => intro acc d _ t; exact Iff.rfl
  | cons e rest ih =>
    intro acc d hm t
    rw [List.foldl_cons]
    rw [ih _ d (by rw [processEntry_isManualAt]; exact hm) t]
    by_cases he : entryDN e = d
    · rw [processEntry_state_eq_of_skip hash iso now acc e (Or.inr (he ▸ hm))]
    · exact processEntry_index_mem hash iso now acc e he t

theorem processFold_allDNs_mono (hash : String → String) (iso : Int → String)
    (now : String) :
    ∀ (es : List Entry) (acc : ProcAcc) (d : String),
      d ∈ acc.state.allDNs →
      d ∈ (es.foldl (processEntry hash iso now) acc).state.allDNs := by
  intro es
  induction es with
  | nil => intro acc d h; exact h
  | cons e rest ih =>
    intro acc d h
    rw [List.foldl_cons]
    refine ih _ d ?_
    rw [processEntry_allDNs]
    by_cases hc : entryDN e ≠ "" ∧ isManualAt acc.state (entryDN e) = false
    · rw [if_pos hc, mem_setAdd]
      exact Or.inl h
    · rw [if_neg hc]
      exact h

theorem processFold_allDNs_of_written (hash : String → String) (iso : Int → String)
    (now : String) :
    ∀ (es : List Entry) (acc : ProcAcc) (d : String),
      d ∈ dnsOf es → isManualAt acc.state d = false →
      d ∈ (es.foldl (processEntry hash iso now) acc).state.allDNs := by
  intro es
  induction es with
  | nil => intro acc d h; simp [dnsOf] at h
  | cons e rest ih =>
    intro acc d hmem hman
    rw [List.foldl_cons]
    rw [dnsOf_cons] at hmem
    by_cases he : entryDN e = d
    · have hd : d ≠ "" := by
        by_cases h0 : entryDN e = ""
        · rw [if_pos h0] at hmem
          exact (mem_dnsOf.1 hmem).1
        · rw [← he]
          exact h0
      refine processFold_allDNs_mono hash iso now rest _ d ?_
      rw [processEntry_allDNs, he, if_pos ⟨hd, hman⟩, mem_setAdd]
      exact Or.inr rfl
    · have hmem' : d ∈ dnsOf rest := by
        by_cases h0 : entryDN e = ""
        · rwa [if_pos h0] at hmem
        · rw [if_neg h0] at hmem
          rcases List.mem_cons.1 hmem with rfl | hmem'
          · exact absurd rfl he
          · exact hmem'
      refine ih _ d hmem' ?_
      rw [processEntry_isManualAt]
      exact hman

/-! ## Delete-phase lemmas -/

theorem deleteUser_cases (s : SyncState) (dn : String) :
    deleteUser s dn = s ∨
      ∃ doc, dn ≠ "" ∧ s.usersByDN dn = some doc ∧ doc.isManual = false := by
  by_cases hdn : dn = ""
  · subst hdn
    exact Or.inl (deleteUser_noop_empty s)
  · rcases hdoc : s.usersByDN dn with _ | doc
    · exact Or.inl (deleteUser_noop_absent hdoc)
    · rcases hman : doc.isManual with _ | _
      · exact Or.inr ⟨doc, hdn, rfl, hman⟩
      · exact Or.inl (deleteUser_noop_manual hdoc hman)

theorem deleteUser_usersByDN_other (s : SyncState) (dn : String) {d : String}
    (hd : d ≠ dn) : (deleteUser s dn).usersByDN d = s.usersByDN d := by
  rcases deleteUser_cases s dn with he | ⟨doc, hdn, hdoc, hman⟩
  · rw [he]
  · rw [(deleteUser_char s dn doc hdn hdoc hman).1 d, if_neg hd]

theorem deleteUser_tokens_other (s : SyncState) (dn : String) {d : String}
    (hd : d ≠ dn) : (deleteUser s dn).tokens d = s.tokens d := by
  rcases deleteUser_cases s dn with he | ⟨doc, hdn, hdoc, hman⟩
  · rw [he]
  · rw [(deleteUser_char s dn doc hdn hdoc hman).2.1 d, if_neg hd]

theorem deleteUser_index_mem_other (s : SyncState) (dn : String) {d : String}
    (hd : d ≠ dn) (t : String) :
    (d ∈ ((deleteUser s dn).index t).getD []) ↔ d ∈ (s.index t).getD [] := by
  rcases deleteUser_cases s dn with he | ⟨doc, hdn, hdoc, hman⟩
  · rw [he]
  · rw [(deleteUser_char s dn doc hdn hdoc hman).2.2.1 t]
    by_cases ht : t ∈ (s.tokens dn).getD []
    · rw [if_pos ht, mem_removeDNEntry_other hd]
    · rw [if_neg ht]

theorem deleteUser_isManualAt_other (s : SyncState) (dn : String) {d : String}
    (hd : d ≠ dn) : isManualAt (deleteUser s dn) d = isManualAt s d := by
  unfold isManualAt
  rw [deleteUser_usersByDN_other s dn hd]

theorem deleteUser_usersByGUID_guard (s : SyncState) (dn : String) (g : String)
    (h : ∀ doc, s.usersByDN dn = some doc → doc.guid ≠ some g) :
    (deleteUser s dn).usersByGUID g = s.usersByGUID g := by
  rcases deleteUser_cases s dn with he | ⟨doc, hdn, hdoc, hman⟩
  · rw [he]
  · rw [(deleteUser_char s dn doc hdn hdoc hman).2.2.2.1 g, if_neg (h doc hdoc)]

theorem deleteUser_meta_eq (s : SyncState) (dn : String) :
    (deleteUser s dn).meta = s.meta := by
  rcases deleteUser_cases s dn with he | ⟨doc, hdn, hdoc, hman⟩
  · rw [he]
  · exact (deleteUser_char s dn doc hdn hdoc hman).2.2.2.2.2

theorem deleteUser_usersByDN_self (s : SyncState) (dn : String) (hdn : dn ≠ "") :
    (deleteUser s dn).usersByDN dn =
      if isManualAt s dn = false then none else s.usersByDN dn := by
  by_cases hman : isManualAt s dn = false
  · rw [if_pos hman]
    rcases hdoc : s.usersByDN dn with _ | doc
    · rw [deleteUser_noop_absent hdoc]
      exact hdoc
    · have hdm : doc.isManual = false := by
        unfold isManualAt at hman
        rw [hdoc] at hman
        exact hman
      rw [(deleteUser_char s dn doc hdn hdoc hdm).1 dn, if_pos rfl]
  · rw [if_neg hman]
    have hmt : isManualAt s dn = true := by simpa using hman
    obtain ⟨doc, hdoc, hdm⟩ : ∃ doc, s.usersByDN dn = some doc ∧ doc.isManual = true := by
      unfold isManualAt at hmt
      rcases hdoc : s.usersByDN dn with _ | doc
      · rw [hdoc] at hmt
        cases hmt
      · rw [hdoc] at hmt
        exact ⟨doc, rfl, hmt⟩
    rw [deleteUser_noop_manual hdoc hdm]

theorem deleteFold_usersByDN (seen : List String) :
    ∀ (known : List String) (acc : DelAcc) (d : String),
      ((known.foldl
        (fun acc dn =>
          if dn = "" then { acc with emptySkips := acc.emptySkips + 1 }
          else if dn ∈ seen then acc
          else { acc with state := deleteUser acc.state dn, deletes := acc.deletes + 1 })
        acc).state.usersByDN d) =
        if d ∈ known ∧ d ∉ seen ∧ d ≠ "" ∧ isManualAt acc.state d = false then none
        else acc.state.usersByDN d := by
  intro known
  induction known with
  | nil =>
    intro acc d
    rw [if_neg (by rintro ⟨h, _⟩; exact List.not_mem_nil d h)]
    rfl
  | cons dn0 rest ih =>
    intro acc d
    rw [List.foldl_cons]
    by_cases h0 : dn0 = ""
    · rw [if_pos h0, ih]
      dsimp only
      by_cases hc : d ∈ rest ∧ d ∉ seen ∧ d ≠ "" ∧ isManualAt acc.state d = false
      · rw [if_pos hc, if_pos ⟨List.mem_cons_of_mem dn0 hc.1, hc.2⟩]
      · rw [if_neg hc, if_neg (by
          rintro ⟨hmem, hs, hne, hm⟩
          rcases List.mem_cons.1 hmem with rfl | hmem
          · exact hne h0
          · exact hc ⟨hmem, hs, hne, hm⟩)]
    · rw [if_neg h0]
      by_cases hseen : dn0 ∈ seen
      · rw [if_pos hseen, ih]
        by_cases hc : d ∈ rest ∧ d ∉ seen ∧ d ≠ "" ∧ isManualAt acc.state d = false
        · rw [if_pos hc, if_pos ⟨List.mem_cons_of_mem dn0 hc.1, hc.2⟩]
        · rw [if_neg hc, if_neg (by
            rintro ⟨hmem, hs, hne, hm⟩
            rcases List.mem_cons.1 hmem with rfl | hmem
            · exact hs hseen
            · exact hc ⟨hmem, hs, hne, hm⟩)]
      · rw [if_neg hseen, ih]
        dsimp only
        by_cases hd : d = dn0
        · subst hd
          by_cases hman : isManualAt acc.state d = false
          · have hnone : (deleteUser acc.state d).usersByDN d = none := by
              rw [deleteUser_usersByDN_self acc.state d h0, if_pos hman]
            have hman' : isManualAt (deleteUser acc.state d) d = false := by
              unfold isManualAt
              rw [hnone]
            by_cases hc : d ∈ rest ∧ d ∉ seen ∧ d ≠ "" ∧
                isManualAt (deleteUser acc.state d) d = false
            · rw [if_pos hc, if_pos ⟨List.mem_cons_self d rest, hseen, h0, hman⟩]
            · rw [if_neg hc, hnone,
                if_pos ⟨List.mem_cons_self d rest, hseen, h0, hman⟩]
          · have hmt : isManualAt acc.state d = true := by
              rcases hb : isManualAt acc.state d with _ | _
              · exact absurd hb hman
              · rfl
            obtain ⟨doc, hdoc, hdman⟩ : ∃ doc,
                acc.state.usersByDN d = some doc ∧ doc.isManual = true := by
              unfold isManualAt at hmt
              rcases hdoc : acc.state.usersByDN d with _ | doc
              · rw [hdoc] at hmt
                cases hmt
              · rw [hdoc] at hmt
                exact ⟨doc, rfl, hmt⟩
            rw [deleteUser_noop_manual hdoc hdman]
            by_cases hc : d ∈ rest ∧ d ∉ seen ∧ d ≠ "" ∧ isManualAt acc.state d = false
            · exact absurd hc.2.2.2 (by rw [hmt]; simp)
            · rw [if_neg hc, if_neg (by
                rintro ⟨_, _, _, hm⟩
                rw [hmt] at hm
                cases hm)]
        · have hby : (deleteUser acc.state dn0).usersByDN d = acc.state.usersByDN d :=
            deleteUser_usersByDN_other acc.state dn0 hd
          have hmeq : isManualAt (deleteUser acc.state dn0) d = isManualAt acc.state d :=
            deleteUser_isManualAt_other acc.state dn0 hd
          rw [hmeq, hby]
          by_cases hc : d ∈ rest ∧ d ∉ seen ∧ d ≠ "" ∧ isManualAt acc.state d = false
          · rw [if_pos hc, if_pos ⟨List.mem_cons_of_mem dn0 hc.1, hc.2⟩]
          · rw [if_neg hc, if_neg (by
              rintro ⟨hmem, hs, hne, hm⟩
              rcases List.mem_cons.1 hmem with rfl | hmem
              · exact hd rfl
              · exact hc ⟨hmem, hs, hne, hm⟩)]

theorem deleteFold_state_id (seen : List String) :
    ∀ (known : List String) (acc : DelAcc),
      (∀ dn ∈ known, dn ∉ seen →
        (acc.state.usersByDN dn = none ∨ isManualAt acc.state dn = true)) →
      (known.foldl
        (fun acc dn =>
          if dn = "" then { acc with emptySkips := acc.emptySkips + 1 }
          else if dn ∈ seen then acc
          else { acc with state := deleteUser acc.state dn, deletes := acc.deletes + 1 })
        acc).state = acc.state := by
  intro known
  induction known with
  | nil => intro acc _; rfl
  | cons dn0 rest ih =>
    intro acc h
    rw [List.foldl_cons]
    by_cases h0 : dn0 = ""
    · rw [if_pos h0]
      exact ih _ (fun dn hdn hs => h dn (List.mem_cons_of_mem dn0 hdn) hs)
    · rw [if_neg h0]
      by_cases hseen : dn0 ∈ seen
      · rw [if_pos hseen]
        exact ih _ (fun dn hdn hs => h dn (List.mem_cons_of_mem dn0 hdn) hs)
      · rw [if_neg hseen]
        have hnoop : deleteUser acc.state dn0 = acc.state := by
          rcases h dn0 (List.mem_cons_self dn0 rest) hseen with hnone | hmt
          · exact deleteUser_noop_absent hnone
          · obtain ⟨doc, hdoc, hdman⟩ : ∃ doc,
                acc.state.usersByDN dn0 = some doc ∧ doc.isManual = true := by
              unfold isManualAt at hmt
              rcases hdoc : acc.state.usersByDN dn0 with _ | doc
              · rw [hdoc] at hmt
                cases hmt
              · rw [hdoc] at hmt
                exact ⟨doc, rfl, hmt⟩
            exact deleteUser_noop_manual hdoc hdman
        rw [show ({ acc with state := deleteUser acc.state dn0, deletes := acc.deletes + 1 } : DelAcc) = { acc with state := acc.state, deletes := acc.deletes + 1 } from by rw [hnoop]]
        exact ih _ (fun dn hdn hs => h dn (List.mem_cons_of_mem dn0 hdn) hs)

theorem deleteFold_deletes (seen : List String) :
    ∀ (known : List String) (acc : DelAcc),
      (known.foldl
        (fun acc dn =>
          if dn = "" then { acc with emptySkips := acc.emptySkips + 1 }
          else if dn ∈ seen then acc
          else { acc with state := deleteUser acc.state dn, deletes := acc.deletes + 1 })
        acc).deletes =
        acc.deletes + (known.filter (fun dn => dn ≠ "" ∧ dn ∉ seen)).length := by
  intro known
  induction known with
  | nil => intro acc; simp
  | cons dn0 rest ih =>
    intro acc
    rw [List.foldl_cons]
    by_cases h0 : dn0 = ""
    · rw [if_pos h0, ih, List.filter_cons_of_neg (by simp [h0])]
    · rw [if_neg h0]
      by_cases hseen : dn0 ∈ seen
      · rw [if_pos hseen, ih, List.filter_cons_of_neg (by simp [h0, hseen])]
      · rw [if_neg hseen, ih, List.filter_cons_of_pos (by simp [h0, hseen])]
        dsimp only
        rw [List.length_cons]
        omega

theorem deleteFold_manual_preserved (seen : List String) :
    ∀ (known : List String) (acc : DelAcc) (d : String) (mdoc : Doc),
      acc.state.usersByDN d = some mdoc → mdoc.isManual = true →
      ((known.foldl
        (fun acc dn =>
          if dn = "" then { acc with emptySkips := acc.emptySkips + 1 }
          else if dn ∈ seen then acc
          else { acc with state := deleteUser acc.state dn, deletes := acc.deletes + 1 })
        acc).state.usersByDN d = some mdoc ∧
      (known.foldl
        (fun acc dn =>
          if dn = "" then { acc with emptySkips := acc.emptySkips + 1 }
          else if dn ∈ seen then acc
          else { acc with state := deleteUser acc.state dn, deletes := acc.deletes + 1 })
        acc).state.tokens d = acc.state.tokens d ∧
      ∀ t, (d ∈ (((known.foldl
        (fun acc dn =>
          if dn = "" then { acc with emptySkips := acc.emptySkips + 1 }
          else if dn ∈ seen then acc
          else { acc with state := deleteUser acc.state dn, deletes := acc.deletes + 1 })
        acc).state.index t).getD [])) ↔ d ∈ ((acc.state.index t).getD [])) := by
  intro known
  induction known with
  | nil => intro acc d mdoc hdoc _; exact ⟨hdoc, rfl, fun t => Iff.rfl⟩
  | cons dn0 rest ih =>
    intro acc d mdoc hdoc hman
    rw [List.foldl_cons]
    by_cases h0 : dn0 = ""
    · rw [if_pos h0]
      exact ih _ d mdoc hdoc hman
    · rw [if_neg h0]
      by_cases hseen : dn0 ∈ seen
      · rw [if_pos hseen]
        exact ih _ d mdoc hdoc hman
      · rw [if_neg hseen]
        by_cases hd : dn0 = d
        · subst hd
          rw [show ({ acc with state := deleteUser acc.state dn0, deletes := acc.deletes + 1 } : DelAcc) = { acc with state := acc.state, deletes := acc.deletes + 1 } from by rw [deleteUser_noop_manual hdoc hman]]
          exact ih _ dn0 mdoc hdoc hman
        · have hd' : d ≠ dn0 := fun h => hd h.symm
          obtain ⟨h1, h2, h3⟩ := ih ({ acc with state := deleteUser acc.state dn0, deletes := acc.deletes + 1 } : DelAcc) d mdoc
            (by rw [deleteUser_usersByDN_other acc.state dn0 hd']; exact hdoc) hman
          refine ⟨h1, ?_, fun t => ?_⟩
          · rw [h2]
            exact deleteUser_tokens_other acc.state dn0 hd'
          · rw [h3 t]
            exact deleteUser_index_mem_other acc.state dn0 hd' t

theorem deleteFold_usersByGUID_guard (seen : List String) :
    ∀ (known : List String) (acc : DelAcc) (g : String),
      (∀ dn ∈ known, dn ∉ seen → ∀ doc, acc.state.usersByDN dn = some doc →
        doc.isManual = false → doc.guid ≠ some g) →
      (known.foldl
        (fun acc dn =>
          if dn = "" then { acc with emptySkips := acc.emptySkips + 1 }
          else if dn ∈ seen then acc
          else { acc with state := deleteUser acc.state dn, deletes := acc.deletes + 1 })
        acc).state.usersByGUID g = acc.state.usersByGUID g := by
  intro known
  induction known with
  | nil => intro acc g _; rfl
  | cons dn0 rest ih =>
    intro acc g h
    rw [List.foldl_cons]
    by_cases h0 : dn0 = ""
    · rw [if_pos h0]
      exact ih _ g (fun dn hdn hs => h dn (List.mem_cons_of_mem dn0 hdn) hs)
    · rw [if_neg h0]
      by_cases hseen : dn0 ∈ seen
      · rw [if_pos hseen]
        exact ih _ g (fun dn hdn hs => h dn (List.mem_cons_of_mem dn0 hdn) hs)
      · rw [if_neg hseen]
        rcases deleteUser_cases acc.state dn0 with hnoop | ⟨doc0, hdn0, hdoc0, hman0⟩
        · rw [ih _ g (fun dn hdn hs doc hdoc hm => by
            dsimp only at hdoc
            rw [hnoop] at hdoc
            exact h dn (List.mem_cons_of_mem dn0 hdn) hs doc hdoc hm)]
          dsimp only
          rw [hnoop]
        · have hgne : doc0.guid ≠ some g :=
            h dn0 (List.mem_cons_self dn0 rest) hseen doc0 hdoc0 hman0
          rw [ih _ g (fun dn hdn hs doc hdoc hm => ?_)]
          · dsimp only
            rw [(deleteUser_char acc.state dn0 doc0 hdn0 hdoc0 hman0).2.2.2.1 g,
              if_neg hgne]
          · dsimp only at hdoc
            by_cases hdd : dn = dn0
            · subst hdd
              rw [(deleteUser_char acc.state dn doc0 hdn0 hdoc0 hman0).1 dn,
                if_pos rfl] at hdoc
              cases hdoc
            · rw [deleteUser_usersByDN_other acc.state dn0 hdd] at hdoc
              exact h dn (List.mem_cons_of_mem dn0 hdn) hs doc hdoc hm

theorem deleteFold_meta (seen : List String) (known : List String) (acc : DelAcc) :
    (known.foldl
      (fun acc dn =>
        if dn = "" then { acc with emptySkips := acc.emptySkips + 1 }
        else if dn ∈ seen then acc
        else { acc with state := deleteUser acc.state dn, deletes := acc.deletes + 1 })
      acc).state.meta = acc.state.meta := by
  refine foldl_invariant (fun a => a.state.meta) _ (fun a dn => ?_) known acc
  by_cases h0 : dn = ""
  · rw [if_pos h0]
  · rw [if_neg h0]
    by_cases hseen : dn ∈ seen
    · rw [if_pos hseen]
    · rw [if_neg hseen]
      exact deleteUser_meta_eq a.state dn

/-! ## Known-set lemmas -/

theorem loadKnown_fold_mem :
    ∀ (L : List String) (acc : List String × Nat) (d : String),
      (d ∈ (L.foldl
        (fun acc dn => if dn = "" then (acc.1, acc.2 + 1) else (setAdd acc.1 dn, acc.2))
        acc).1) ↔ d ∈ acc.1 ∨ (d ∈ L ∧ d ≠ "") := by
  intro L
  induction L with
  | nil => intro acc d; simp
  | cons dn0 rest ih =>
    intro acc d
    rw [List.foldl_cons]
    by_cases h0 : dn0 = ""
    · rw [if_pos h0, ih]
      simp only [List.mem_cons]
      constructor
      · rintro (h | ⟨h, hne⟩)
        · exact Or.inl h
        · exact Or.inr ⟨Or.inr h, hne⟩
      · rintro (h | ⟨rfl | h, hne⟩)
        · exact Or.inl h
        · exact absurd h0 hne
        · exact Or.inr ⟨h, hne⟩
    · rw [if_neg h0, ih]
      dsimp only
      rw [mem_setAdd]
      simp only [List.mem_cons]
      constructor
      · rintro ((h | rfl) | ⟨h, hne⟩)
        · exact Or.inl h
        · exact Or.inr ⟨Or.inl rfl, h0⟩
        · exact Or.inr ⟨Or.inr h, hne⟩
      · rintro (h | ⟨rfl | h, hne⟩)
        · exact Or.inl (Or.inl h)
        · exact Or.inl (Or.inr rfl)
        · exact Or.inr ⟨h, hne⟩

theorem loadKnown_mem (s : SyncState) (d : String) :
    d ∈ (loadKnown s).1 ↔ d ∈ s.allDNs ∧ d ≠ "" := by
  unfold loadKnown
  rw [loadKnown_fold_mem]
  simp

theorem loadKnown_fold_nodup :
    ∀ (L : List String) (acc : List String × Nat), acc.1.Nodup →
      (L.foldl
        (fun acc dn => if dn = "" then (acc.1, acc.2 + 1) else (setAdd acc.1 dn, acc.2))
        acc).1.Nodup := by
  intro L
  induction L with
  | nil => intro acc h; exact h
  | cons dn0 rest ih =>
    intro acc h
    rw [List.foldl_cons]
    by_cases h0 : dn0 = ""
    · rw [if_pos h0]
      exact ih _ h
    · rw [if_neg h0]
      exact ih _ (nodup_setAdd h dn0)

theorem loadKnown_nodup (s : SyncState) : (loadKnown s).1.Nodup := by
  unfold loadKnown
  exact loadKnown_fold_nodup _ _ List.nodup_nil

theorem filter_length_mono {α : Type _} (p q : α → Bool) :
    ∀ (l : List α), (∀ a ∈ l, p a = true → q a = true) →
      (l.filter p).length ≤ (l.filter q).length := by
  intro l
  induction l with
  | nil => intro; simp
  | cons a as ih =>
    intro h
    by_cases hp : p a = true
    · rw [List.filter_cons_of_pos hp, List.filter_cons_of_pos (h a (List.mem_cons_self a as) hp)]
      simpa using ih (fun x hx => h x (List.mem_cons_of_mem a hx))
    · rw [List.filter_cons_of_neg (by simpa using hp)]
      calc (as.filter p).length ≤ (as.filter q).length :=
            ih (fun x hx => h x (List.mem_cons_of_mem a hx))
        _ ≤ ((a :: as).filter q).length := by
            by_cases hq : q a = true
            · rw [List.filter_cons_of_pos hq]
              simp
            · rw [List.filter_cons_of_neg (by simpa using hq)]

/-- A record surviving processing at a seen DN: every seen DN holds a
record after the Processing phase. -/
theorem processAll_seen_isSome (hash : String → String) (iso : Int → String)
    (now : String) (s₀ : SyncState) (es : List Entry) (d : String)
    (hd : d ∈ (processAll hash iso now s₀ es).seen) :
    (processAll hash iso now s₀ es).state.usersByDN d ≠ none := by
  unfold processAll at *
  rw [processFold_seen_mem] at hd
  rcases hd with hd | hd
  · simp at hd
  · obtain ⟨hne, e, he, hdn⟩ := mem_dnsOf.1 hd
    rw [processFold_usersByDN hash iso now es _ d hne]
    by_cases hm : isManualAt s₀ d = true
    · rw [if_pos hm]
      unfold isManualAt at hm
      rcases hdoc : s₀.usersByDN d with _ | doc
      · rw [hdoc] at hm
        cases hm
      · simp
    · rw [if_neg hm]
      rcases hlast : lastEntryAt es d with _ | e'
      · rw [lastEntryAt_eq_none_iff] at hlast
        exact absurd hdn (hlast e he)
      · simp

/-- The primary store after a full pass, pointwise: a record is removed
exactly when its DN is known, unseen, and holds a non-manual record. -/
theorem runPass_usersByDN (hash : String → String) (iso : Int → String)
    (baseDN now : String) (s₀ : SyncState) (es : List Entry) (d : String) :
    (runPass hash iso baseDN now s₀ es).state.usersByDN d =
      if d ∈ (loadKnown s₀).1 ∧ d ∉ (processAll hash iso now s₀ es).seen ∧ d ≠ "" ∧
          isManualAt (processAll hash iso now s₀ es).state d = false
      then none
      else (processAll hash iso now s₀ es).state.usersByDN d := by
  unfold runPass deletePhase
  dsimp only
  rw [deleteFold_usersByDN]

/-- C3 — Delta correctness: the records removed from the primary store by
the Deleting phase are exactly those whose DN is in the known set K loaded
before the pass, absent from the seen set S built during Processing, and
whose stored record after Processing exists and is not manual; no seen DN
and no manual record is ever deleted. -/
theorem deltaDelete_correct (hash : String → String) (iso : Int → String)
    (baseDN now : String) (s₀ : SyncState) (es : List Entry) :
    (∀ d, ((runPass hash iso baseDN now s₀ es).state.usersByDN d = none ∧
        (processAll hash iso now s₀ es).state.usersByDN d ≠ none) ↔
      (d ∈ (loadKnown s₀).1 ∧ d ∉ (processAll hash iso now s₀ es).seen ∧
        ∃ doc, (processAll hash iso now s₀ es).state.usersByDN d = some doc ∧
          doc.isManual = false)) ∧
    (∀ d, d ∈ (processAll hash iso now s₀ es).seen →
      (runPass hash iso baseDN now s₀ es).state.usersByDN d ≠ none) ∧
    (∀ d doc, (processAll hash iso now s₀ es).state.usersByDN d = some doc →
      doc.isManual = true →
      (runPass hash iso baseDN now s₀ es).state.usersByDN d = some doc) := by
  refine ⟨fun d => ?_, fun d hseen => ?_, fun d doc hdoc hman => ?_⟩
  · rw [runPass_usersByDN]
    by_cases hc : d ∈ (loadKnown s₀).1 ∧ d ∉ (processAll hash iso now s₀ es).seen ∧
        d ≠ "" ∧ isManualAt (processAll hash iso now s₀ es).state d = false
    · rw [if_pos hc]
      obtain ⟨hK, hS, hne, hm⟩ := hc
      constructor
      · rintro ⟨-, hsome⟩
        refine ⟨hK, hS, ?_⟩
        unfold isManualAt at hm
        rcases hdoc : (processAll hash iso now s₀ es).state.usersByDN d with _ | doc
        · exact absurd hdoc hsome
        · rw [hdoc] at hm
          exact ⟨doc, rfl, hm⟩
      · rintro ⟨-, -, doc, hdoc, -⟩
        exact ⟨rfl, by rw [hdoc]; exact Option.some_ne_none doc⟩
    · rw [if_neg hc]
      constructor
      · rintro ⟨hnone, hsome⟩
        exact absurd hnone hsome
      · rintro ⟨hK, hS, doc, hdoc, hdman⟩
        exfalso
        refine hc ⟨hK, hS, (loadKnown_mem s₀ d).1 hK |>.2, ?_⟩
        unfold isManualAt
        rw [hdoc]
        exact hdman
  · rw [runPass_usersByDN, if_neg (by rintro ⟨-, hS, -, -⟩; exact hS hseen)]
    exact processAll_seen_isSome hash iso now s₀ es d hseen
  · rw [runPass_usersByDN, if_neg (by
      rintro ⟨-, -, -, hm⟩
      unfold isManualAt at hm
      rw [hdoc] at hm
      dsimp only at hm
      rw [hman] at hm
      exact absurd hm (by decide))]
    exact hdoc

/-- C10 — The deletes counter recorded in run metadata counts every
non-empty known DN absent from the seen set, including DNs whose record is
manual or already absent (for which `deleteUser` removes nothing), so it
can exceed the number of records actually removed; the final conjuncts
exhibit a run with `deletes = 1` and zero records removed. -/
theorem deletesCount_includes_unremovable (hash : String → String)
    (iso : Int → String) (baseDN now : String) (s₀ : SyncState) (es : List Entry) :
    ((runPass hash iso baseDN now s₀ es).deletes =
      ((loadKnown s₀).1.filter
        (fun dn => dn ≠ "" ∧ dn ∉ (processAll hash iso now s₀ es).seen)).length) ∧
    (((loadKnown s₀).1.filter
        (fun d => ((processAll hash iso now s₀ es).state.usersByDN d).isSome &&
          ((runPass hash iso baseDN now s₀ es).state.usersByDN d).isNone)).length ≤
      (runPass hash iso baseDN now s₀ es).deletes) ∧
    ((runPass (fun x => x) (fun _ => "") "DC=x" "t0"
        { emptyState with allDNs := ["CN=Stale,OU=X"] } []).deletes = 1 ∧
      ((loadKnown ({ emptyState with allDNs := ["CN=Stale,OU=X"] } : SyncState)).1.filter
        (fun d => ((processAll (fun x => x) (fun _ => "") "t0"
            { emptyState with allDNs := ["CN=Stale,OU=X"] } []).state.usersByDN d).isSome &&
          ((runPass (fun x => x) (fun _ => "") "DC=x" "t0"
            { emptyState with allDNs := ["CN=Stale,OU=X"] } []).state.usersByDN d).isNone)).length
        = 0) := by
  have hdel : (runPass hash iso baseDN now s₀ es).deletes =
      ((loadKnown s₀).1.filter
        (fun dn => dn ≠ "" ∧ dn ∉ (processAll hash iso now s₀ es).seen)).length := by
    unfold runPass deletePhase
    dsimp only
    rw [deleteFold_deletes]
    simp
  refine ⟨hdel, ?_, by decide, by decide⟩
  rw [hdel]
  refine filter_length_mono _ _ (loadKnown s₀).1 (fun d hd hp => ?_)
  rw [Bool.and_eq_true] at hp
  obtain ⟨h1, h2⟩ := hp
  rw [runPass_usersByDN] at h2
  rw [decide_eq_true_eq]
  by_cases hc : d ∈ (loadKnown s₀).1 ∧ d ∉ (processAll hash iso now s₀ es).seen ∧
      d ≠ "" ∧ isManualAt (processAll hash iso now s₀ es).state d = false
  · exact ⟨hc.2.2.1, hc.2.1⟩
  · rw [if_neg hc] at h2
    rcases ho : (processAll hash iso now s₀ es).state.usersByDN d with _ | doc
    · rw [ho] at h1
      cases h1
    · rw [ho] at h2
      cases h2

/-- Processing never touches the primary record or token set of a DN that
currently holds a manual record. -/
theorem processFold_byDN_manual (hash : String → String) (iso : Int → String)
    (now : String) :
    ∀ (es : List Entry) (acc : ProcAcc) (d : String),
      isManualAt acc.state d = true →
      (es.foldl (processEntry hash iso now) acc).state.usersByDN d =
          acc.state.usersByDN d ∧
        (es.foldl (processEntry hash iso now) acc).state.tokens d =
          acc.state.tokens d := by
  intro es
  induction es with
  | nil => intro acc d _; exact ⟨rfl, rfl⟩
  | cons e rest ih =>
    intro acc d hm
    rw [List.foldl_cons]
    obtain ⟨h1, h2⟩ := ih (processEntry hash iso now acc e) d
      (by rw [processEntry_isManualAt]; exact hm)
    have hcond : ¬(entryDN e = d ∧ d ≠ "" ∧ isManualAt acc.state d = false) := by
      rintro ⟨-, -, hmf⟩
      rw [hm] at hmf
      cases hmf
    constructor
    · rw [h1, processEntry_usersByDN, if_neg hcond]
    · rw [h2, processEntry_tokens, if_neg hcond]

/-- Processing never touches the secondary-key entry at `g` when the DN
holding the manual record is the only snapshot DN that could map to `g`. -/
theorem processFold_usersByGUID_guard (hash : String → String) (iso : Int → String)
    (now : String) :
    ∀ (es : List Entry) (acc : ProcAcc) (g d : String),
      isManualAt acc.state d = true →
      (∀ e ∈ es, entryDN e ≠ d → normalizeGUID hash e.objectGUID ≠ some g) →
      (es.foldl (processEntry hash iso now) acc).state.usersByGUID g =
        acc.state.usersByGUID g := by
  intro es
  induction es with
  | nil => intro acc g d _ _; rfl
  | cons e rest ih =>
    intro acc g d hm hguard
    rw [List.foldl_cons]
    rw [ih _ g d (by rw [processEntry_isManualAt]; exact hm)
      (fun e' he' => hguard e' (List.mem_cons_of_mem e he'))]
    rw [processEntry_usersByGUID]
    rw [if_neg ?_]
    rintro ⟨hne, hmf, hg⟩
    by_cases hed : entryDN e = d
    · rw [hed] at hmf
      rw [hm] at hmf
      cases hmf
    · exact hguard e (List.mem_cons_self e rest) hed hg

/-- C1 (amended) — Manual-record invariance: a pass never changes the
stored body, per-DN token set, or index contributions of a record flagged
`isManual = true`; its secondary-key entry is also unchanged provided no
snapshot entry under a different DN normalizes to the record's guid and no
other stored record shares that guid (without that proviso the entry can
be overwritten, see the counterexample). -/
theorem manualRecord_invariant (hash : String → String) (iso : Int → String)
    (baseDN now : String) (s₀ : SyncState) (es : List Entry) (d : String) (mdoc : Doc)
    (hdoc : s₀.usersByDN d = some mdoc) (hman : mdoc.isManual = true) :
    (runPass hash iso baseDN now s₀ es).state.usersByDN d = some mdoc ∧
    (runPass hash iso baseDN now s₀ es).state.tokens d = s₀.tokens d ∧
    (∀ t, (d ∈ (((runPass hash iso baseDN now s₀ es).state.index t).getD [])) ↔
      d ∈ ((s₀.index t).getD [])) ∧
    (∀ g, mdoc.guid = some g →
      (∀ e ∈ es, entryDN e ≠ d → normalizeGUID hash e.objectGUID ≠ some g) →
      (∀ d' doc', d' ≠ d → s₀.usersByDN d' = some doc' → doc'.guid ≠ some g) →
      (runPass hash iso baseDN now s₀ es).state.usersByGUID g = s₀.usersByGUID g) := by
  have hm0 : isManualAt s₀ d = true := by
    unfold isManualAt
    rw [hdoc]
    exact hman
  have hPbd := processFold_byDN_manual hash iso now es
    { state := s₀, seen := [], upserts := 0, skippedNoDN := 0, skippedManual := 0 } d hm0
  have hPidx := processFold_index_mem_manual hash iso now es
    { state := s₀, seen := [], upserts := 0, skippedNoDN := 0, skippedManual := 0 } d hm0
  have hPdoc : (processAll hash iso now s₀ es).state.usersByDN d = some mdoc := by
    unfold processAll
    rw [hPbd.1]
    exact hdoc
  have hDel := deleteFold_manual_preserved (processAll hash iso now s₀ es).seen
    (loadKnown s₀).1
    { state := (processAll hash iso now s₀ es).state, deletes := 0, emptySkips := 0 }
    d mdoc hPdoc hman
  refine ⟨?_, ?_, fun t => ?_, fun g hg hes hstored => ?_⟩
  · show (deletePhase (processAll hash iso now s₀ es).seen (loadKnown s₀).1
      (processAll hash iso now s₀ es).state).state.usersByDN d = some mdoc
    unfold deletePhase
    exact hDel.1
  · show (deletePhase (processAll hash iso now s₀ es).seen (loadKnown s₀).1
      (processAll hash iso now s₀ es).state).state.tokens d = s₀.tokens d
    unfold deletePhase
    rw [hDel.2.1]
    show (processAll hash iso now s₀ es).state.tokens d = s₀.tokens d
    unfold processAll
    exact hPbd.2
  · show (d ∈ ((deletePhase (processAll hash iso now s₀ es).seen (loadKnown s₀).1
      (processAll hash iso now s₀ es).state).state.index t).getD []) ↔
      d ∈ ((s₀.index t).getD [])
    unfold deletePhase
    rw [hDel.2.2 t]
    show (d ∈ (((processAll hash iso now s₀ es).state.index t).getD [])) ↔
      d ∈ ((s₀.index t).getD [])
    unfold processAll
    exact hPidx t
  · have hPgu : (processAll hash iso now s₀ es).state.usersByGUID g =
        s₀.usersByGUID g := by
      unfold processAll
      exact processFold_usersByGUID_guard hash iso now es _ g d hm0 hes
    have hguard : ∀ dn ∈ (loadKnown s₀).1, dn ∉ (processAll hash iso now s₀ es).seen →
        ∀ doc, (processAll hash iso now s₀ es).state.usersByDN dn = some doc →
        doc.isManual = false → doc.guid ≠ some g := by
      intro dn hknown hseen doc hdocn hdman
      obtain ⟨-, hdn⟩ := (loadKnown_mem s₀ dn).1 hknown
      have hnolast : lastEntryAt es dn = none := by
        rw [lastEntryAt_eq_none_iff]
        intro e he hcon
        refine hseen ?_
        unfold processAll
        rw [processFold_seen_mem]
        exact Or.inr (mem_dnsOf.2 ⟨hdn, e, he, hcon⟩)
      have hsame : (processAll hash iso now s₀ es).state.usersByDN dn =
          s₀.usersByDN dn := by
        unfold processAll
        rw [processFold_usersByDN hash iso now es _ dn hdn]
        by_cases hmm : isManualAt s₀ dn = true
        · rw [if_pos hmm]
        · rw [if_neg hmm, hnolast]
      rw [hsame] at hdocn
      by_cases hdd : dn = d
      · subst hdd
        rw [hdoc] at hdocn
        cases hdocn
        rw [hman] at hdman
        cases hdman
      · exact hstored dn doc hdd hdocn
    show (deletePhase (processAll hash iso now s₀ es).seen (loadKnown s₀).1
      (processAll hash iso now s₀ es).state).state.usersByGUID g = s₀.usersByGUID g
    unfold deletePhase
    rw [deleteFold_usersByGUID_guard _ _ _ g hguard]
    exact hPgu

/-- A concrete manually-created record (administrative path). -/
def manualDoc : Doc :=
  { dn := "CN=M,OU=X"
    guid := some "aaaaaaaa-aaaa-aaaa-aaaa-aaaaaaaaaaaa"
    accountName := none
    upn := none
    email := none
    displayName := some "Manual Person"
    firstName := none
    lastName := none
    title := none
    department := none
    company := none
    office := none
    location :=
      { city := none
        state := none
        country := none
        street := none
        postalCode := none }
    phones := { business := none, mobile := none, ipPhone := none }
    groups := { dns := [], names := [] }
    managerDN := none
    lastLogon := none
    lastLogonTimestamp := none
    passwordLastSet := none
    whenChanged := none
    whenCreated := none
    uac := none
    uacDescription := none
    isManual := true
    syncedAt := "t0" }

/-- A store holding just the manual record (primary and secondary key). -/
def manualState : SyncState :=
  { emptyState with
    usersByDN := Function.update emptyState.usersByDN "CN=M,OU=X" (some manualDoc)
    usersByGUID :=
      Function.update emptyState.usersByGUID "aaaaaaaa-aaaa-aaaa-aaaa-aaaaaaaaaaaa"
        (some manualDoc) }

/-- A snapshot entry under a different DN whose raw identifier normalizes
to the manual record's guid. -/
def collidingEntry : Entry :=
  { distinguishedName := some "CN=O,OU=X"
    dnAttr := none
    objectGUID := some "aaaaaaaa-aaaa-aaaa-aaaa-aaaaaaaaaaaa"
    sAMAccountName := none
    userPrincipalName := none
    mail := none
    displayName := none
    givenName := none
    sn := none
    title := none
    department := none
    company := none
    physicalDeliveryOfficeName := none
    l := none
    st := none
    co := none
    telephoneNumber := none
    mobile := none
    ipPhone := none
    streetAddress := none
    postalCode := none
    memberOf := []
    manager := none
    lastLogon := RawTime.missing
    lastLogonTimestamp := RawTime.missing
    pwdLastSet := RawTime.missing
    whenChanged := none
    whenCreated := none
    userAccountControl := none }

/-- Counterexample to C1 as stated: a pass over a snapshot containing an
entry with a different DN but the manual record's guid overwrites the
manual record's secondary-key entry. -/
theorem manualRecord_guid_clobbered_cex :
    (runPass (fun x => x) (fun _ => "") "DC=x" "t1" manualState
        [collidingEntry]).state.usersByGUID "aaaaaaaa-aaaa-aaaa-aaaa-aaaaaaaaaaaa" ≠
      manualState.usersByGUID "aaaaaaaa-aaaa-aaaa-aaaa-aaaaaaaaaaaa" := by
  decide

/-- Witness for C1 (amended) at the concrete manual store, over a snapshot
containing only the colliding-DN-free view (empty snapshot). -/
theorem manualRecord_invariant_witness :
    manualState.usersByDN "CN=M,OU=X" = some manualDoc ∧ manualDoc.isManual = true ∧
      ((runPass (fun x => x) (fun _ => "") "DC=x" "t1" manualState
          []).state.usersByDN "CN=M,OU=X" = some manualDoc ∧
        (runPass (fun x => x) (fun _ => "") "DC=x" "t1" manualState
          []).state.tokens "CN=M,OU=X" = manualState.tokens "CN=M,OU=X" ∧
        (∀ t, ("CN=M,OU=X" ∈ (((runPass (fun x => x) (fun _ => "") "DC=x" "t1"
            manualState []).state.index t).getD [])) ↔
          "CN=M,OU=X" ∈ ((manualState.index t).getD [])) ∧
        (∀ g, manualDoc.guid = some g →
          (∀ e ∈ ([] : List Entry), entryDN e ≠ "CN=M,OU=X" →
            normalizeGUID (fun x => x) e.objectGUID ≠ some g) →
          (∀ d' doc', d' ≠ "CN=M,OU=X" → manualState.usersByDN d' = some doc' →
            doc'.guid ≠ some g) →
          (runPass (fun x => x) (fun _ => "") "DC=x" "t1" manualState
            []).state.usersByGUID g = manualState.usersByGUID g)) :=
  ⟨by decide, by decide,
    manualRecord_invariant (fun x => x) (fun _ => "") "DC=x" "t1" manualState []
      "CN=M,OU=X" manualDoc (by decide) (by decide)⟩

/-- C8 — Run metadata write condition: a successful run overwrites the
metadata record exactly once, after the Deleting phase, with the pass's
counts; every fatally failing run (preload, bind, search, or an error
during Processing or Deleting) writes no metadata — the stored record
still describes the last successful run — and signals non-zero
completion. -/
theorem metadata_write_condition (hash : String → String) (iso : Int → String)
    (baseDN now : String) (s₀ : SyncState) (es : List Entry) :
    ((mainRun hash iso baseDN now FailPoint.noFail s₀ es).metaWrites = 1 ∧
      (mainRun hash iso baseDN now FailPoint.noFail s₀ es).state.meta =
        some { atTime := now, baseDN := baseDN
               upserts := (processAll hash iso now s₀ es).upserts
               deletes := (runPass hash iso baseDN now s₀ es).deletes
               ldapCount := es.length } ∧
      (mainRun hash iso baseDN now FailPoint.noFail s₀ es).exitOk = true) ∧
    (∀ fp, fp ≠ FailPoint.noFail →
      (mainRun hash iso baseDN now fp s₀ es).metaWrites = 0 ∧
      (mainRun hash iso baseDN now fp s₀ es).state.meta = s₀.meta ∧
      (mainRun hash iso baseDN now fp s₀ es).exitOk = false) := by
  constructor
  · exact ⟨rfl, rfl, rfl⟩
  · intro fp hfp
    cases fp with
    | noFail => exact absurd rfl hfp
    | preloadFail => exact ⟨rfl, rfl, rfl⟩
    | bindFail => exact ⟨rfl, rfl, rfl⟩
    | searchFail => exact ⟨rfl, rfl, rfl⟩
    | processFail k =>
      refine ⟨rfl, ?_, rfl⟩
      show (processAll hash iso now s₀ (es.take k)).state.meta = s₀.meta
      unfold processAll
      exact processFold_meta hash iso now (es.take k) _
    | deleteFail k =>
      refine ⟨rfl, ?_, rfl⟩
      show (deletePhase (processAll hash iso now s₀ es).seen ((loadKnown s₀).1.take k)
        (processAll hash iso now s₀ es).state).state.meta = s₀.meta
      unfold deletePhase
      rw [deleteFold_meta]
      show (processAll hash iso now s₀ es).state.meta = s₀.meta
      unfold processAll
      exact processFold_meta hash iso now es _

/-- Counterexample to C9 as stated: a failure during the known-identifier
preload happens before the `try`/`finally` block (and before the per-run
log stream exists), so the store handle is not closed on that exit path. -/
theorem preload_failure_skips_cleanup_cex :
    (mainRun (fun x => x) (fun _ => "") "DC=x" "t1" FailPoint.preloadFail
      emptyState []).dbClosed = false := rfl

/-- C9 (amended) — Resource release: on success and on bind, search,
Processing or Deleting failures — every path that enters the
`try`/`finally` block — the per-run log stream is closed, the directory
connection released, and the store handle closed; a known-identifier
preload failure, however, aborts before the block (and before the log
stream exists), releasing nothing. -/
theorem resources_released (hash : String → String) (iso : Int → String)
    (baseDN now : String) (s₀ : SyncState) (es : List Entry) :
    (∀ fp, fp ≠ FailPoint.preloadFail →
      (mainRun hash iso baseDN now fp s₀ es).fileStreamClosed = true ∧
      (mainRun hash iso baseDN now fp s₀ es).unbound = true ∧
      (mainRun hash iso baseDN now fp s₀ es).dbClosed = true) ∧
    ((mainRun hash iso baseDN now FailPoint.preloadFail s₀ es).fileStreamClosed = false ∧
      (mainRun hash iso baseDN now FailPoint.preloadFail s₀ es).unbound = false ∧
      (mainRun hash iso baseDN now FailPoint.preloadFail s₀ es).dbClosed = false) := by
  constructor
  · intro fp hfp
    cases fp with
    | preloadFail => exact absurd rfl hfp
    | noFail => exact ⟨rfl, rfl, rfl⟩
    | bindFail => exact ⟨rfl, rfl, rfl⟩
    | searchFail => exact ⟨rfl, rfl, rfl⟩
    | processFail k => exact ⟨rfl, rfl, rfl⟩
    | deleteFail k => exact ⟨rfl, rfl, rfl⟩
  · exact ⟨rfl, rfl, rfl⟩

/-! ## Second-pass idempotence: auxiliary lemmas -/

theorem setAdd_eq_of_mem {l : List String} {a : String} (h : a ∈ l) :
    setAdd l a = l := by
  unfold setAdd
  rw [if_pos h]

/-- Re-normalizing the same entry at a later wall clock changes only the
`syncedAt` field. -/
theorem normalizeEntry_syncedAt_shift (hash : String → String) (iso : Int → String)
    (now now' : String) (e : Entry) :
    normalizeEntry hash iso now' e =
      { normalizeEntry hash iso now e with syncedAt := now' } := rfl

/-- The searchable fields do not include `syncedAt`, so the token list of a
normalized entry does not depend on the wall clock. -/
theorem docTokens_normalizeEntry_now (hash : String → String) (iso : Int → String)
    (now now' : String) (e : Entry) :
    docTokens (normalizeEntry hash iso now e) =
      docTokens (normalizeEntry hash iso now' e) := rfl

/-- Pointwise effect of one processing-loop iteration on an index entry. -/
theorem processEntry_index (hash : String → String) (iso : Int → String)
    (now : String) (acc : ProcAcc) (e : Entry) (t : String) :
    (processEntry hash iso now acc e).state.index t =
      if entryDN e ≠ "" ∧ isManualAt acc.state (entryDN e) = false then
        (if t ∈ docTokens (normalizeEntry hash iso now e) ∧
            t ∉ (acc.state.tokens (entryDN e)).getD [] then
          addDNEntry (entryDN e) (acc.state.index t)
        else if t ∈ (acc.state.tokens (entryDN e)).getD [] ∧
            t ∉ docTokens (normalizeEntry hash iso now e) then
          removeDNEntry (entryDN e) (acc.state.index t)
        else acc.state.index t)
      else acc.state.index t := by
  rw [processEntry_eq]
  by_cases h1 : entryDN e = ""
  · rw [if_pos h1, if_neg (by rintro ⟨hd, _⟩; exact hd h1)]
  · rw [if_neg h1]
    by_cases h2 : isManualAt acc.state (entryDN e) = true
    · rw [if_pos h2, if_neg (by rintro ⟨_, hm⟩; rw [h2] at hm; cases hm)]
    · rw [if_neg h2]
      dsimp only
      rw [updateIndexForUser_index]
      dsimp only
      rw [if_pos (show entryDN e ≠ "" ∧ isManualAt acc.state (entryDN e) = false from
        ⟨h1, by simpa using h2⟩)]

/-- With duplicate-free snapshot DNs, every entry is the last entry at its
own DN. -/
theorem lastEntryAt_of_nodup :
    ∀ (es : List Entry), (dnsOf es).Nodup →
      ∀ e ∈ es, entryDN e ≠ "" → lastEntryAt es (entryDN e) = some e := by
  intro es
  induction es with
  | nil => intro _ e he; exact absurd he (List.not_mem_nil e)
  | cons e0 rest ih =>
    intro hnd e he hne
    rcases List.mem_cons.1 he with rfl | he'
    · have hnotin : entryDN e ∉ dnsOf rest := by
        rw [dnsOf_cons, if_neg hne] at hnd
        exact (List.nodup_cons.1 hnd).1
      rw [lastEntryAt_cons_eq rfl]
      have hrest : lastEntryAt rest (entryDN e) = none := by
        rw [lastEntryAt_eq_none_iff]
        intro e' he'' hcon
        exact hnotin (mem_dnsOf.2 ⟨hne, e', he'', hcon⟩)
      rw [hrest]
    · by_cases h0 : entryDN e0 = entryDN e
      · exfalso
        have hne0 : entryDN e0 ≠ "" := by rw [h0]; exact hne
        rw [dnsOf_cons, if_neg hne0] at hnd
        have hmem : entryDN e ∈ dnsOf rest := mem_dnsOf.2 ⟨hne, e, he', rfl⟩
        exact (List.nodup_cons.1 hnd).1 (h0 ▸ hmem)
      · rw [lastEntryAt_cons_ne h0]
        refine ih ?_ e he' hne
        rw [dnsOf_cons] at hnd
        by_cases hz : entryDN e0 = ""
        · rwa [if_pos hz] at hnd
        · rw [if_neg hz] at hnd
          exact (List.nodup_cons.1 hnd).2

/-- Every DN in `allDNs` after the processing loop was there before or was
written by the loop. -/
theorem processFold_allDNs_subset (hash : String → String) (iso : Int → String)
    (now : String) :
    ∀ (es : List Entry) (acc : ProcAcc) (d : String),
      d ∈ (es.foldl (processEntry hash iso now) acc).state.allDNs →
      d ∈ acc.state.allDNs ∨ d ∈ dnsOf es := by
  intro es
  induction es with
  | nil => intro acc d h; exact Or.inl h
  | cons e rest ih =>
    intro acc d h
    rw [List.foldl_cons] at h
    rcases ih _ d h with h' | h'
    · rw [processEntry_allDNs] at h'
      by_cases hc : entryDN e ≠ "" ∧ isManualAt acc.state (entryDN e) = false
      · rw [if_pos hc] at h'
        rcases mem_setAdd.1 h' with h'' | rfl
        · exact Or.inl h''
        · right
          rw [dnsOf_cons, if_neg hc.1]
          exact List.mem_cons_self _ _
      · rw [if_neg hc] at h'
        exact Or.inl h'
    · right
      rw [dnsOf_cons]
      by_cases hz : entryDN e = ""
      · rw [if_pos hz]
        exact h'
      · rw [if_neg hz]
        exact List.mem_cons_of_mem _ h'

theorem deleteUser_allDNs_subset (s : SyncState) (dn : String) {d : String}
    (h : d ∈ (deleteUser s dn).allDNs) : d ∈ s.allDNs := by
  rcases deleteUser_cases s dn with he | ⟨doc, hdn, hdoc, hman⟩
  · rwa [he] at h
  · rw [(deleteUser_char s dn doc hdn hdoc hman).2.2.2.2.1] at h
    exact List.mem_of_mem_filter h

theorem deleteUser_allDNs_mem_other (s : SyncState) (dn : String) {d : String}
    (hd : d ≠ dn) (h : d ∈ s.allDNs) : d ∈ (deleteUser s dn).allDNs := by
  rcases deleteUser_cases s dn with he | ⟨doc, hdn, hdoc, hman⟩
  · rwa [he]
  · rw [(deleteUser_char s dn doc hdn hdoc hman).2.2.2.2.1]
    exact List.mem_filter.2 ⟨h, by simpa using hd⟩

theorem deleteFold_allDNs_subset (seen : List String) :
    ∀ (known : List String) (acc : DelAcc) (d : String),
      d ∈ ((known.foldl
        (fun acc dn =>
          if dn = "" then { acc with emptySkips := acc.emptySkips + 1 }
          else if dn ∈ seen then acc
          else { acc with state := deleteUser acc.state dn, deletes := acc.deletes + 1 })
        acc).state.allDNs) →
      d ∈ acc.state.allDNs := by
  intro known
  induction known with
  | nil => intro acc d h; exact h
  | cons dn0 rest ih =>
    intro acc d h
    rw [List.foldl_cons] at h
    by_cases h0 : dn0 = ""
    · rw [if_pos h0] at h
      exact ih { acc with emptySkips := acc.emptySkips + 1 } d h
    · rw [if_neg h0] at h
      by_cases hseen : dn0 ∈ seen
      · rw [if_pos hseen] at h
        exact ih acc d h
      · rw [if_neg hseen] at h
        exact deleteUser_allDNs_subset acc.state dn0
          (ih { acc with state := deleteUser acc.state dn0, deletes := acc.deletes + 1 } d h)

theorem deleteFold_allDNs_mem_seen (seen : List String) :
    ∀ (known : List String) (acc : DelAcc) (d : String), d ∈ seen →
      d ∈ acc.state.allDNs →
      d ∈ ((known.foldl
        (fun acc dn =>
          if dn = "" then { acc with emptySkips := acc.emptySkips + 1 }
          else if dn ∈ seen then acc
          else { acc with state := deleteUser acc.state dn, deletes := acc.deletes + 1 })
        acc).state.allDNs) := by
  intro known
  induction known with
  | nil => intro acc d _ h; exact h
  | cons dn0 rest ih =>
    intro acc d hd h
    rw [List.foldl_cons]
    by_cases h0 : dn0 = ""
    · rw [if_pos h0]
      exact ih _ d hd h
    · rw [if_neg h0]
      by_cases hseen : dn0 ∈ seen
      · rw [if_pos hseen]
        exact ih _ d hd h
      · rw [if_neg hseen]
        have hne : d ≠ dn0 := fun hcon => hseen (hcon ▸ hd)
        exact ih _ d hd (deleteUser_allDNs_mem_other acc.state dn0 hne h)

theorem deleteFold_tokens_seen (seen : List String) :
    ∀ (known : List String) (acc : DelAcc) (d : String), d ∈ seen →
      ((known.foldl
        (fun acc dn =>
          if dn = "" then { acc with emptySkips := acc.emptySkips + 1 }
          else if dn ∈ seen then acc
          else { acc with state := deleteUser acc.state dn, deletes := acc.deletes + 1 })
        acc).state.tokens d) = acc.state.tokens d := by
  intro known
  induction known with
  | nil => intro acc d _; rfl
  | cons dn0 rest ih =>
    intro acc d hd
    rw [List.foldl_cons]
    by_cases h0 : dn0 = ""
    · rw [if_pos h0]
      exact ih _ d hd
    · rw [if_neg h0]
      by_cases hseen : dn0 ∈ seen
      · rw [if_pos hseen]
        exact ih _ d hd
      · rw [if_neg hseen]
        have hne : d ≠ dn0 := fun hcon => hseen (hcon ▸ hd)
        rw [ih _ d hd]
        exact deleteUser_tokens_other acc.state dn0 hne

/-- After a full pass with duplicate-free snapshot DNs, every snapshot DN
not holding a manual record stores exactly the normalization of its (unique)
entry, its deduplicated token list, and is tracked in `allDNs`. -/
theorem runPass_seen_facts (hash : String → String) (iso : Int → String)
    (baseDN now : String) (s₀ : SyncState) (es : List Entry)
    (hnd : (dnsOf es).Nodup) :
    ∀ e ∈ es, entryDN e ≠ "" →
      isManualAt (runPass hash iso baseDN now s₀ es).state (entryDN e) = false →
      (runPass hash iso baseDN now s₀ es).state.usersByDN (entryDN e) =
        some (normalizeEntry hash iso now e) ∧
      (runPass hash iso baseDN now s₀ es).state.tokens (entryDN e) =
        some ((docTokens (normalizeEntry hash iso now e)).foldl setAdd []) ∧
      entryDN e ∈ (runPass hash iso baseDN now s₀ es).state.allDNs := by
  intro e he hne hman
  have hseen : entryDN e ∈ (processAll hash iso now s₀ es).seen := by
    unfold processAll
    rw [processFold_seen_mem]
    exact Or.inr (mem_dnsOf.2 ⟨hne, e, he, rfl⟩)
  have hbyDN : (runPass hash iso baseDN now s₀ es).state.usersByDN (entryDN e) =
      (processAll hash iso now s₀ es).state.usersByDN (entryDN e) := by
    rw [runPass_usersByDN, if_neg (by rintro ⟨_, hns, _⟩; exact hns hseen)]
  have hmanp : isManualAt (processAll hash iso now s₀ es).state (entryDN e) = false := by
    unfold isManualAt at hman ⊢
    rw [hbyDN] at hman
    exact hman
  have hman0 : isManualAt s₀ (entryDN e) = false := by
    have hfold := processFold_isManualAt hash iso now es
      { state := s₀, seen := [], upserts := 0, skippedNoDN := 0, skippedManual := 0 }
      (entryDN e)
    unfold processAll at hmanp
    rw [hfold] at hmanp
    exact hmanp
  have hlast : lastEntryAt es (entryDN e) = some e := lastEntryAt_of_nodup es hnd e he hne
  refine ⟨?_, ?_, ?_⟩
  · rw [hbyDN]
    unfold processAll
    rw [processFold_usersByDN hash iso now es _ _ hne]
    dsimp only
    rw [if_neg (by intro hcon; rw [hman0] at hcon; cases hcon), hlast]
  · have htok2 : (runPass hash iso baseDN now s₀ es).state.tokens (entryDN e) =
        (processAll hash iso now s₀ es).state.tokens (entryDN e) := by
      unfold runPass deletePhase
      dsimp only
      exact deleteFold_tokens_seen (processAll hash iso now s₀ es).seen
        (loadKnown s₀).1 _ _ hseen
    rw [htok2]
    unfold processAll
    rw [processFold_tokens hash iso now es _ _ hne]
    dsimp only
    rw [if_neg (by intro hcon; rw [hman0] at hcon; cases hcon), hlast]
  · have hp : entryDN e ∈ (processAll hash iso now s₀ es).state.allDNs := by
      unfold processAll
      exact processFold_allDNs_of_written hash iso now es _ _
        (mem_dnsOf.2 ⟨hne, e, he, rfl⟩) hman0
    show entryDN e ∈ (runPass hash iso baseDN now s₀ es).state.allDNs
    unfold runPass deletePhase
    dsimp only
    exact deleteFold_allDNs_mem_seen (processAll hash iso now s₀ es).seen
      (loadKnown s₀).1 _ (entryDN e) hseen hp

/-- After a full pass, a tracked DN that is non-empty and absent from the
snapshot holds no record or a manual one. -/
theorem runPass_unseen_cleared (hash : String → String) (iso : Int → String)
    (baseDN now : String) (s₀ : SyncState) (es : List Entry) (dn : String)
    (hmem : dn ∈ (runPass hash iso baseDN now s₀ es).state.allDNs)
    (hne : dn ≠ "") (hns : dn ∉ dnsOf es) :
    (runPass hash iso baseDN now s₀ es).state.usersByDN dn = none ∨
      isManualAt (runPass hash iso baseDN now s₀ es).state dn = true := by
  have hseen : dn ∉ (processAll hash iso now s₀ es).seen := by
    intro h
    unfold processAll at h
    rw [processFold_seen_mem] at h
    rcases h with h | h
    · exact absurd h (List.not_mem_nil dn)
    · exact hns h
  by_cases hc : dn ∈ (loadKnown s₀).1 ∧ dn ∉ (processAll hash iso now s₀ es).seen ∧
      dn ≠ "" ∧ isManualAt (processAll hash iso now s₀ es).state dn = false
  · left
    rw [runPass_usersByDN, if_pos hc]
  · have hbyDN : (runPass hash iso baseDN now s₀ es).state.usersByDN dn =
        (processAll hash iso now s₀ es).state.usersByDN dn := by
      rw [runPass_usersByDN, if_neg hc]
    by_cases hK : dn ∈ (loadKnown s₀).1
    · have hmanp : isManualAt (processAll hash iso now s₀ es).state dn = true := by
        rcases hb : isManualAt (processAll hash iso now s₀ es).state dn with _ | _
        · exact absurd ⟨hK, hseen, hne, hb⟩ hc
        · rfl
      right
      unfold isManualAt at hmanp ⊢
      rw [hbyDN]
      exact hmanp
    · exfalso
      have h0 : dn ∉ s₀.allDNs := fun h => hK ((loadKnown_mem s₀ dn).2 ⟨h, hne⟩)
      have hmem' : dn ∈ (deletePhase (processAll hash iso now s₀ es).seen
          (loadKnown s₀).1 (processAll hash iso now s₀ es).state).state.allDNs := by
        unfold runPass at hmem
        dsimp only at hmem
        exact hmem
      have h1 : dn ∈ (processAll hash iso now s₀ es).state.allDNs := by
        unfold deletePhase at hmem'
        exact deleteFold_allDNs_subset (processAll hash iso now s₀ es).seen
          (loadKnown s₀).1 _ dn hmem'
      have h2 := processFold_allDNs_subset hash iso now es
        { state := s₀, seen := [], upserts := 0, skippedNoDN := 0, skippedManual := 0 }
        dn (by unfold processAll at h1; exact h1)
      rcases h2 with h2 | h2
      · exact h0 h2
      · exact hns h2

/-- Replay coupling: folding the processing loop (at wall clock `now₂`) over
a snapshot whose non-manual entries the store `S₂` already holds (as left by
a pass at `now₁`) keeps the index, the token store and `allDNs` untouched,
and changes stored non-manual bodies only in their `syncedAt` field. -/
theorem secondPass_coupling (hash : String → String) (iso : Int → String)
    (now₁ now₂ : String) (S₂ : SyncState) :
    ∀ (es : List Entry) (v : ProcAcc),
      (∀ t, v.state.index t = S₂.index t) →
      (∀ d, v.state.tokens d = S₂.tokens d) →
      (∀ d, v.state.usersByDN d = S₂.usersByDN d ∨
        ∃ doc, S₂.usersByDN d = some doc ∧ doc.isManual = false ∧
          v.state.usersByDN d = some { doc with syncedAt := now₂ }) →
      v.state.allDNs = S₂.allDNs →
      (∀ e ∈ es, entryDN e ≠ "" → isManualAt S₂ (entryDN e) = false →
        S₂.usersByDN (entryDN e) = some (normalizeEntry hash iso now₁ e) ∧
        S₂.tokens (entryDN e) =
          some ((docTokens (normalizeEntry hash iso now₁ e)).foldl setAdd []) ∧
        entryDN e ∈ S₂.allDNs) →
      ((∀ t, (es.foldl (processEntry hash iso now₂) v).state.index t = S₂.index t) ∧
       (∀ d, (es.foldl (processEntry hash iso now₂) v).state.tokens d = S₂.tokens d) ∧
       (∀ d, (es.foldl (processEntry hash iso now₂) v).state.usersByDN d =
           S₂.usersByDN d ∨
         ∃ doc, S₂.usersByDN d = some doc ∧ doc.isManual = false ∧
           (es.foldl (processEntry hash iso now₂) v).state.usersByDN d =
             some { doc with syncedAt := now₂ }) ∧
       (es.foldl (processEntry hash iso now₂) v).state.allDNs = S₂.allDNs) := by
  intro es
  induction es with
  | nil => intro v h1 h2 h3 h4 _; exact ⟨h1, h2, h3, h4⟩
  | cons e rest ih =>
    intro v h1 h2 h3 h4 hQ
    rw [List.foldl_cons]
    have hman_eq : ∀ d, isManualAt v.state d = isManualAt S₂ d := by
      intro d
      rcases h3 d with h | ⟨doc, hS, hmd, hv⟩
      · unfold isManualAt
        rw [h]
      · unfold isManualAt
        rw [hS, hv]
    by_cases hdn : entryDN e = ""
    · have hst : (processEntry hash iso now₂ v e).state = v.state :=
        processEntry_state_eq_of_skip hash iso now₂ v e (Or.inl hdn)
      refine ih _ (fun t => ?_) (fun d => ?_) (fun d => ?_) ?_
        (fun e' he' => hQ e' (List.mem_cons_of_mem e he'))
      · rw [hst]; exact h1 t
      · rw [hst]; exact h2 d
      · rw [hst]; exact h3 d
      · rw [hst]; exact h4
    · by_cases hm : isManualAt v.state (entryDN e) = true
      · have hst : (processEntry hash iso now₂ v e).state = v.state :=
          processEntry_state_eq_of_skip hash iso now₂ v e (Or.inr hm)
        refine ih _ (fun t => ?_) (fun d => ?_) (fun d => ?_) ?_
          (fun e' he' => hQ e' (List.mem_cons_of_mem e he'))
        · rw [hst]; exact h1 t
        · rw [hst]; exact h2 d
        · rw [hst]; exact h3 d
        · rw [hst]; exact h4
      · have hmv : isManualAt v.state (entryDN e) = false := by
          rcases hb : isManualAt v.state (entryDN e) with _ | _
          · rfl
          · exact absurd hb hm
        have hmS : isManualAt S₂ (entryDN e) = false := by
          rw [← hman_eq]; exact hmv
        obtain ⟨hQ1, hQ2, hQ3⟩ := hQ e (List.mem_cons_self e rest) hdn hmS
        have htok_v : v.state.tokens (entryDN e) =
            some ((docTokens (normalizeEntry hash iso now₁ e)).foldl setAdd []) := by
          rw [h2]; exact hQ2
        have hdt : docTokens (normalizeEntry hash iso now₂ e) =
            docTokens (normalizeEntry hash iso now₁ e) :=
          docTokens_normalizeEntry_now hash iso now₂ now₁ e
        refine ih _ (fun t => ?_) (fun d => ?_) (fun d => ?_) ?_
          (fun e' he' => hQ e' (List.mem_cons_of_mem e he'))
        · rw [processEntry_index hash iso now₂ v e t,
            if_pos (show entryDN e ≠ "" ∧ isManualAt v.state (entryDN e) = false from
              ⟨hdn, hmv⟩), htok_v, hdt]
          rw [if_neg (by
            rintro ⟨ht, hnt⟩
            rw [Option.getD_some] at hnt
            exact hnt (mem_foldl_setAdd_nil.2 ht))]
          rw [if_neg (by
            rintro ⟨ht, hnt⟩
            rw [Option.getD_some] at ht
            exact hnt (mem_foldl_setAdd_nil.1 ht))]
          exact h1 t
        · rw [processEntry_tokens]
          by_cases hde : entryDN e = d ∧ d ≠ "" ∧ isManualAt v.state d = false
          · rw [if_pos hde, hdt, ← hde.1]
            exact hQ2.symm
          · rw [if_neg hde]
            exact h2 d
        · rw [processEntry_usersByDN]
          by_cases hde : entryDN e = d ∧ d ≠ "" ∧ isManualAt v.state d = false
          · rw [if_pos hde]
            right
            refine ⟨normalizeEntry hash iso now₁ e, ?_, rfl, ?_⟩
            · rw [← hde.1]; exact hQ1
            · rw [normalizeEntry_syncedAt_shift hash iso now₁ now₂ e]
          · rw [if_neg hde]
            exact h3 d
        · rw [processEntry_allDNs,
            if_pos (show entryDN e ≠ "" ∧ isManualAt v.state (entryDN e) = false from
              ⟨hdn, hmv⟩), h4]
          exact setAdd_eq_of_mem hQ3

/-- A minimal snapshot entry: a DN and nothing else. -/
def simpleEntry : Entry :=
  { distinguishedName := some "CN=Alice,OU=People"
    dnAttr := none
    objectGUID := none
    sAMAccountName := none
    userPrincipalName := none
    mail := none
    displayName := none
    givenName := none
    sn := none
    title := none
    department := none
    company := none
    physicalDeliveryOfficeName := none
    l := none
    st := none
    co := none
    telephoneNumber := none
    mobile := none
    ipPhone := none
    streetAddress := none
    postalCode := none
    memberOf := []
    manager := none
    lastLogon := RawTime.missing
    lastLogonTimestamp := RawTime.missing
    pwdLastSet := RawTime.missing
    whenChanged := none
    whenCreated := none
    userAccountControl := none }

/-- Counterexample to C5 as stated: a second pass over the identical
snapshot rewrites every non-manual record body with a fresh `syncedAt`
timestamp, so the stored bodies are not bit-identical to their values
before the second pass. -/
theorem secondPass_changes_body_cex :
    (runPass (fun x => x) (fun _ => "") "DC=x" "t2"
        (runPass (fun x => x) (fun _ => "") "DC=x" "t1" emptyState
          [simpleEntry]).state
        [simpleEntry]).state.usersByDN "CN=Alice,OU=People" ≠
      (runPass (fun x => x) (fun _ => "") "DC=x" "t1" emptyState
        [simpleEntry]).state.usersByDN "CN=Alice,OU=People" := by
  decide

/-- C5 (amended) — Idempotence up to sync timestamps: if the snapshot's
non-empty DNs are duplicate-free, a second pass over the identical snapshot
leaves every index entry, every per-DN token set and the `allDNs` tracking
store bit-identical, removes no record, and changes a stored record body at
most by refreshing the `syncedAt` field of a non-manual record.  (As stated
the claim is false: `syncedAt` is rewritten on every upsert, so bodies are
not bit-identical — see the counterexample.) -/
theorem secondPass_idempotent (hash : String → String) (iso : Int → String)
    (baseDN now₁ now₂ : String) (s₀ : SyncState) (es : List Entry)
    (hnd : (dnsOf es).Nodup) :
    (∀ t, (runPass hash iso baseDN now₂
        (runPass hash iso baseDN now₁ s₀ es).state es).state.index t =
      (runPass hash iso baseDN now₁ s₀ es).state.index t) ∧
    (∀ d, (runPass hash iso baseDN now₂
        (runPass hash iso baseDN now₁ s₀ es).state es).state.tokens d =
      (runPass hash iso baseDN now₁ s₀ es).state.tokens d) ∧
    (runPass hash iso baseDN now₂
        (runPass hash iso baseDN now₁ s₀ es).state es).state.allDNs =
      (runPass hash iso baseDN now₁ s₀ es).state.allDNs ∧
    (∀ d, (runPass hash iso baseDN now₂
          (runPass hash iso baseDN now₁ s₀ es).state es).state.usersByDN d =
        (runPass hash iso baseDN now₁ s₀ es).state.usersByDN d ∨
      ∃ doc, (runPass hash iso baseDN now₁ s₀ es).state.usersByDN d = some doc ∧
        doc.isManual = false ∧
        (runPass hash iso baseDN now₂
          (runPass hash iso baseDN now₁ s₀ es).state es).state.usersByDN d =
            some { doc with syncedAt := now₂ }) ∧
    (∀ d, (runPass hash iso baseDN now₁ s₀ es).state.usersByDN d ≠ none →
      (runPass hash iso baseDN now₂
        (runPass hash iso baseDN now₁ s₀ es).state es).state.usersByDN d ≠ none) := by
  obtain ⟨H1, H2, H3, H4⟩ :=
    secondPass_coupling hash iso now₁ now₂ (runPass hash iso baseDN now₁ s₀ es).state es
      { state := (runPass hash iso baseDN now₁ s₀ es).state, seen := [], upserts := 0,
        skippedNoDN := 0, skippedManual := 0 }
      (fun t => rfl) (fun d => rfl) (fun d => Or.inl rfl) rfl
      (runPass_seen_facts hash iso baseDN now₁ s₀ es hnd)
  have hdelid : (deletePhase
      (processAll hash iso now₂ (runPass hash iso baseDN now₁ s₀ es).state es).seen
      (loadKnown (runPass hash iso baseDN now₁ s₀ es).state).1
      (processAll hash iso now₂
        (runPass hash iso baseDN now₁ s₀ es).state es).state).state =
      (processAll hash iso now₂ (runPass hash iso baseDN now₁ s₀ es).state es).state := by
    unfold deletePhase
    refine deleteFold_state_id _ _ _ ?_
    intro dn hdn hnseen
    have hK := (loadKnown_mem (runPass hash iso baseDN now₁ s₀ es).state dn).1 hdn
    have hns' : dn ∉ dnsOf es := by
      intro h
      apply hnseen
      unfold processAll
      rw [processFold_seen_mem]
      exact Or.inr h
    have hfact := runPass_unseen_cleared hash iso baseDN now₁ s₀ es dn hK.1 hK.2 hns'
    dsimp only
    unfold processAll
    rcases H3 dn with heq | ⟨doc, hS, hmd, hv⟩
    · rcases hfact with hnone | hmanv
      · left
        rw [heq]
        exact hnone
      · right
        unfold isManualAt at hmanv ⊢
        rw [heq]
        exact hmanv
    · exfalso
      rcases hfact with hnone | hmanv
      · rw [hS] at hnone
        cases hnone
      · obtain ⟨doc', hdoc', hman'⟩ : ∃ doc',
            (runPass hash iso baseDN now₁ s₀ es).state.usersByDN dn = some doc' ∧
            doc'.isManual = true := by
          unfold isManualAt at hmanv
          rcases hdoc' : (runPass hash iso baseDN now₁ s₀ es).state.usersByDN dn
            with _ | doc'
          · rw [hdoc'] at hmanv
            cases hmanv
          · rw [hdoc'] at hmanv
            exact ⟨doc', rfl, hmanv⟩
        rw [hS] at hdoc'
        cases Option.some.inj hdoc'
        rw [hmd] at hman'
        cases hman'
  refine ⟨fun t => ?_, fun d => ?_, ?_, fun d => ?_, fun d hne => ?_⟩
  · show (deletePhase
        (processAll hash iso now₂ (runPass hash iso baseDN now₁ s₀ es).state es).seen
        (loadKnown (runPass hash iso baseDN now₁ s₀ es).state).1
        (processAll hash iso now₂
          (runPass hash iso baseDN now₁ s₀ es).state es).state).state.index t =
      (runPass hash iso baseDN now₁ s₀ es).state.index t
    rw [hdelid]
    unfold processAll
    exact H1 t
  · show (deletePhase
        (processAll hash iso now₂ (runPass hash iso baseDN now₁ s₀ es).state es).seen
        (loadKnown (runPass hash iso baseDN now₁ s₀ es).state).1
        (processAll hash iso now₂
          (runPass hash iso baseDN now₁ s₀ es).state es).state).state.tokens d =
      (runPass hash iso baseDN now₁ s₀ es).state.tokens d
    rw [hdelid]
    unfold processAll
    exact H2 d
  · show (deletePhase
        (processAll hash iso now₂ (runPass hash iso baseDN now₁ s₀ es).state es).seen
        (loadKnown (runPass hash iso baseDN now₁ s₀ es).state).1
        (processAll hash iso now₂
          (runPass hash iso baseDN now₁ s₀ es).state es).state).state.allDNs =
      (runPass hash iso baseDN now₁ s₀ es).state.allDNs
    rw [hdelid]
    unfold processAll
    exact H4
  · show (deletePhase
        (processAll hash iso now₂ (runPass hash iso baseDN now₁ s₀ es).state es).seen
        (loadKnown (runPass hash iso baseDN now₁ s₀ es).state).1
        (processAll hash iso now₂
          (runPass hash iso baseDN now₁ s₀ es).state es).state).state.usersByDN d =
        (runPass hash iso baseDN now₁ s₀ es).state.usersByDN d ∨
      ∃ doc, (runPass hash iso baseDN now₁ s₀ es).state.usersByDN d = some doc ∧
        doc.isManual = false ∧
        (deletePhase
          (processAll hash iso now₂ (runPass hash iso baseDN now₁ s₀ es).state es).seen
          (loadKnown (runPass hash iso baseDN now₁ s₀ es).state).1
          (processAll hash iso now₂
            (runPass hash iso baseDN now₁ s₀ es).state es).state).state.usersByDN d =
              some { doc with syncedAt := now₂ }
    rw [hdelid]
    unfold processAll
    exact H3 d
  · show (deletePhase
        (processAll hash iso now₂ (runPass hash iso baseDN now₁ s₀ es).state es).seen
        (loadKnown (runPass hash iso baseDN now₁ s₀ es).state).1
        (processAll hash iso now₂
          (runPass hash iso baseDN now₁ s₀ es).state es).state).state.usersByDN d ≠ none
    rw [hdelid]
    unfold processAll
    rcases H3 d with heq | ⟨doc, hS, hmd, hv⟩
    · rw [heq]
      exact hne
    · rw [hv]
      exact Option.some_ne_none _

/-- Witness for C5 (amended) on a concrete one-entry snapshot: the
duplicate-free-DNs hypothesis holds and the second pass leaves everything
but `syncedAt` unchanged. -/
theorem secondPass_idempotent_witness :
    (dnsOf [simpleEntry]).Nodup ∧
    ((∀ t, (runPass (fun x => x) (fun _ => "") "DC=x" "t2"
        (runPass (fun x => x) (fun _ => "") "DC=x" "t1" emptyState
          [simpleEntry]).state [simpleEntry]).state.index t =
      (runPass (fun x => x) (fun _ => "") "DC=x" "t1" emptyState
        [simpleEntry]).state.index t) ∧
    (∀ d, (runPass (fun x => x) (fun _ => "") "DC=x" "t2"
        (runPass (fun x => x) (fun _ => "") "DC=x" "t1" emptyState
          [simpleEntry]).state [simpleEntry]).state.tokens d =
      (runPass (fun x => x) (fun _ => "") "DC=x" "t1" emptyState
        [simpleEntry]).state.tokens d) ∧
    (runPass (fun x => x) (fun _ => "") "DC=x" "t2"
        (runPass (fun x => x) (fun _ => "") "DC=x" "t1" emptyState
          [simpleEntry]).state [simpleEntry]).state.allDNs =
      (runPass (fun x => x) (fun _ => "") "DC=x" "t1" emptyState
        [simpleEntry]).state.allDNs ∧
    (∀ d, (runPass (fun x => x) (fun _ => "") "DC=x" "t2"
          (runPass (fun x => x) (fun _ => "") "DC=x" "t1" emptyState
            [simpleEntry]).state [simpleEntry]).state.usersByDN d =
        (runPass (fun x => x) (fun _ => "") "DC=x" "t1" emptyState
          [simpleEntry]).state.usersByDN d ∨
      ∃ doc, (runPass (fun x => x) (fun _ => "") "DC=x" "t1" emptyState
          [simpleEntry]).state.usersByDN d = some doc ∧
        doc.isManual = false ∧
        (runPass (fun x => x) (fun _ => "") "DC=x" "t2"
          (runPass (fun x => x) (fun _ => "") "DC=x" "t1" emptyState
            [simpleEntry]).state [simpleEntry]).state.usersByDN d =
              some { doc with syncedAt := "t2" }) ∧
    (∀ d, (runPass (fun x => x) (fun _ => "") "DC=x" "t1" emptyState
        [simpleEntry]).state.usersByDN d ≠ none →
      (runPass (fun x => x) (fun _ => "") "DC=x" "t2"
        (runPass (fun x => x) (fun _ => "") "DC=x" "t1" emptyState
          [simpleEntry]).state [simpleEntry]).state.usersByDN d ≠ none)) :=
  ⟨by decide,
    secondPass_idempotent (fun x => x) (fun _ => "") "DC=x" "t1" "t2" emptyState
      [simpleEntry] (by decide)⟩
